import Mathlib

/-!
Verification of the private-blockchain core (src/block.js and src/blockchain.js).

The development shallow-embeds the two JavaScript classes:

* JavaScript values that travel through JSON.stringify / JSON.parse are
  modelled by the inductive `Jval` (numbers restricted to integers: the
  repository only ever serialises strings, objects and whatever the caller
  puts in a star payload; float payloads are outside this model).
* `JSON.stringify` is modelled by `jsonStringify` (insertion-order keys, the
  standard escape table) and `JSON.parse` by `jsonParse`, a fuel-indexed
  recursive-descent parser over the character list of the input.
* `Buffer.from(s).toString(hex)` is modelled by `strBytes` (UTF-8) composed
  with `bytesToHex`; the npm hex2ascii module is modelled byte-for-byte by
  `hex2ascii` (it decodes each hex PAIR to one character code, which is NOT
  a UTF-8 decode - that asymmetry is observable in `Block.getBData`).
* `SHA256(JSON.stringify(block)).toString()` is a fixed deterministic
  function of the five block fields, so it is modelled by an arbitrary
  parameter `H : Block → String`; every theorem below is proved for all `H`,
  hence in particular for the real composite.
* Promise-returning methods are modelled as pure functions returning their
  settled value plus the final mutable state.  Where the source can leave a
  promise unsettled forever (the async-executor pattern in `submitStar`),
  the outcome is modelled explicitly by the `SubmitRes.hungVerify` /
  `SubmitRes.hungAppend` constructors.
-/

deriving instance DecidableEq for Except

namespace PrivateBlockchain

/-! ## JSON values

`Jval` is the value universe crossing `JSON.stringify` / `JSON.parse` in the
source.  Objects are insertion-ordered key/value lists (JavaScript objects
cannot carry duplicate keys, but the model does not need that restriction).
-/

inductive Jval where
  | jnull
  | jbool (b : Bool)
  | jnum (n : Int)
  | jstr (s : String)
  | jarr (items : List Jval)
  | jobj (members : List (String × Jval))

/-- The opening-brace character, kept as a named constant. -/
def lcurly : Char := Char.ofNat 123

/-- The closing-brace character, kept as a named constant. -/
def rcurly : Char := Char.ofNat 125

mutual

/-- Boolean equality on `Jval` (structural). -/
def beqJ : Jval → Jval → Bool
  | .jnull, .jnull => true
  | .jbool a, .jbool b => a == b
  | .jnum a, .jnum b => a == b
  | .jstr a, .jstr b => a == b
  | .jarr a, .jarr b => beqJL a b
  | .jobj a, .jobj b => beqJM a b
  | _, _ => false

/-- Boolean equality on `Jval` lists. -/
def beqJL : List Jval → List Jval → Bool
  | [], [] => true
  | a :: as, b :: bs => beqJ a b && beqJL as bs
  | _, _ => false

/-- Boolean equality on member lists. -/
def beqJM : List (String × Jval) → List (String × Jval) → Bool
  | [], [] => true
  | (k, v) :: as, (k2, v2) :: bs => k == k2 && beqJ v v2 && beqJM as bs
  | _, _ => false

end

mutual

theorem beqJ_eq : ∀ a b : Jval, beqJ a b = true ↔ a = b
  | .jnull, b => by cases b <;> simp [beqJ]
  | .jbool x, b => by cases b <;> simp [beqJ]
  | .jnum x, b => by cases b <;> simp [beqJ]
  | .jstr x, b => by cases b <;> simp [beqJ]
  | .jarr xs, b => by cases b <;> simp [beqJ, beqJL_eq xs _]
  | .jobj ms, b => by cases b <;> simp [beqJ, beqJM_eq ms _]

theorem beqJL_eq : ∀ as bs : List Jval, beqJL as bs = true ↔ as = bs
  | [], bs => by cases bs <;> simp [beqJL]
  | a :: as, bs => by cases bs <;> simp [beqJL, beqJ_eq a _, beqJL_eq as _]

theorem beqJM_eq : ∀ as bs : List (String × Jval), beqJM as bs = true ↔ as = bs
  | [], bs => by cases bs <;> simp [beqJM]
  | (k, v) :: as, bs => by
      cases bs with
      | nil => simp [beqJM]
      | cons p bs =>
          obtain ⟨k2, v2⟩ := p
          simp [beqJM, beqJ_eq v _, beqJM_eq as _, and_assoc]

end

instance : DecidableEq Jval := fun a b => decidable_of_iff _ (beqJ_eq a b)

/-! ## JSON.stringify -/

/-- Decimal digit characters, most significant first, by structural recursion
on a fuel bound (so that the kernel can evaluate it; any fuel above the number
works, see `natCharsF_fuel`). -/
def natCharsF : Nat → Nat → List Char
  | 0, _ => []
  | fuel + 1, n =>
      if n < 10 then [Char.ofNat (48 + n)]
      else natCharsF fuel (n / 10) ++ [Char.ofNat (48 + n % 10)]

/-- Decimal digit characters of a natural number, most significant first.
This matches the output of the JavaScript number-to-string conversion on
non-negative integers. -/
def natChars (n : Nat) : List Char := natCharsF (n + 1) n

/-- Characters of an integer: optional minus sign, then decimal digits. -/
def intChars (i : Int) : List Char :=
  if i < 0 then '-' :: natChars i.natAbs else natChars i.natAbs

/-- Lowercase hexadecimal digit character for a value below 16. -/
def hexDigitChar (d : Nat) : Char :=
  Char.ofNat (if d < 10 then 48 + d else 87 + d)

/-- JSON string escaping of one character, as performed by `JSON.stringify`:
quote and backslash get a backslash escape, the five short control escapes
are used where they exist, any other control character becomes a lowercase
four-digit u-escape, everything else is copied verbatim. -/
def escChar (c : Char) : List Char :=
  if c = '"' then ['\\', '"']
  else if c = '\\' then ['\\', '\\']
  else if c = Char.ofNat 8 then ['\\', 'b']
  else if c = '\t' then ['\\', 't']
  else if c = '\n' then ['\\', 'n']
  else if c = Char.ofNat 12 then ['\\', 'f']
  else if c = '\r' then ['\\', 'r']
  else if c.toNat < 32 then
    ['\\', 'u', '0', '0', hexDigitChar (c.toNat / 16), hexDigitChar (c.toNat % 16)]
  else [c]

/-- Escaped character list of a string body (without the surrounding quotes). -/
def escStr (s : String) : List Char := s.data.flatMap escChar

mutual

/-- Characters of `JSON.stringify` applied to one value. -/
def stringifyV : Jval → List Char
  | .jnull => ['n', 'u', 'l', 'l']
  | .jbool true => ['t', 'r', 'u', 'e']
  | .jbool false => ['f', 'a', 'l', 's', 'e']
  | .jnum n => intChars n
  | .jstr s => '"' :: escStr s ++ ['"']
  | .jarr items => '[' :: stringifyItems items ++ [']']
  | .jobj members => lcurly :: stringifyMembers members ++ [rcurly]

/-- Comma-separated renderings of array elements. -/
def stringifyItems : List Jval → List Char
  | [] => []
  | [x] => stringifyV x
  | x :: y :: rest => stringifyV x ++ ',' :: stringifyItems (y :: rest)

/-- Comma-separated renderings of object members (quoted key, colon, value). -/
def stringifyMembers : List (String × Jval) → List Char
  | [] => []
  | [(k, v)] => '"' :: escStr k ++ '"' :: ':' :: stringifyV v
  | (k, v) :: m :: rest =>
      ('"' :: escStr k ++ '"' :: ':' :: stringifyV v) ++ ',' :: stringifyMembers (m :: rest)

end

/-- The model of `JSON.stringify`. -/
def jsonStringify (x : Jval) : String := String.mk (stringifyV x)

/-! ## JSON.parse -/

/-- The four whitespace characters `JSON.parse` skips. -/
def jsonWs (c : Char) : Bool := c == ' ' || c == '\t' || c == '\n' || c == '\r'

/-- Drop leading JSON whitespace. -/
def dropWs : List Char → List Char
  | [] => []
  | c :: r => if jsonWs c then dropWs r else c :: r

/-- Decimal digit test. -/
def digit? (c : Char) : Bool := 48 ≤ c.toNat && c.toNat ≤ 57

/-- Split off the maximal leading run of decimal digits. -/
def grabDigits : List Char → List Char × List Char
  | [] => ([], [])
  | c :: r =>
      if digit? c then
        let p := grabDigits r
        (c :: p.1, p.2)
      else ([], c :: r)

/-- Value of a digit run, most significant first. -/
def digitsVal (ds : List Char) : Nat :=
  ds.foldl (fun a c => 10 * a + (c.toNat - 48)) 0

/-- A digit run with a superfluous leading zero, which the JSON number
grammar rejects. -/
def leadingZero : List Char → Bool
  | c :: _ :: _ => c == '0'
  | _ => false

/-- Parse an unsigned JSON number token restricted to the integer fragment of
the model: a digit run without leading zeros.  A following fraction or
exponent character makes the input leave the `Jval` fragment, so the model
rejects it (real `JSON.parse` would read a float there; floats are outside
this embedding, and the repository never produces them). -/
def parseNatTok (cs : List Char) : Option (Nat × List Char) :=
  match grabDigits cs with
  | ([], _) => none
  | (ds, rest) =>
      if leadingZero ds then none
      else
        match rest with
        | c :: _ => if c = '.' ∨ c = 'e' ∨ c = 'E' then none else some (digitsVal ds, rest)
        | [] => some (digitsVal ds, rest)

/-- Parse a JSON number token (optional minus sign, then `parseNatTok`). -/
def parseIntTok (cs : List Char) : Option (Int × List Char) :=
  match cs with
  | '-' :: r => (parseNatTok r).map (fun p => (-(p.1 : Int), p.2))
  | _ => (parseNatTok cs).map (fun p => ((p.1 : Int), p.2))

/-- Hexadecimal digit value, accepting both cases. -/
def hexDigitVal? (c : Char) : Option Nat :=
  if 48 ≤ c.toNat ∧ c.toNat ≤ 57 then some (c.toNat - 48)
  else if 97 ≤ c.toNat ∧ c.toNat ≤ 102 then some (c.toNat - 87)
  else if 65 ≤ c.toNat ∧ c.toNat ≤ 70 then some (c.toNat - 55)
  else none

/-- Decode a short escape character as in the JSON string grammar. -/
def unescChar (c : Char) : Option Char :=
  if c = '"' then some '"'
  else if c = '\\' then some '\\'
  else if c = '/' then some '/'
  else if c = 'b' then some (Char.ofNat 8)
  else if c = 'f' then some (Char.ofNat 12)
  else if c = 'n' then some '\n'
  else if c = 'r' then some '\r'
  else if c = 't' then some '\t'
  else none

/-- Parse the body of a JSON string after the opening quote, returning the
decoded characters and the characters after the closing quote.  Unescaped
control characters are rejected, as in `JSON.parse`. -/
def parseStrBody : List Char → Option (List Char × List Char)
  | [] => none
  | c :: r =>
      if c = '"' then some ([], r)
      else if c = '\\' then
        match r with
        | 'u' :: h1 :: h2 :: h3 :: h4 :: r2 =>
            match hexDigitVal? h1, hexDigitVal? h2, hexDigitVal? h3, hexDigitVal? h4 with
            | some v1, some v2, some v3, some v4 =>
                (parseStrBody r2).map
                  (fun p => (Char.ofNat (((v1 * 16 + v2) * 16 + v3) * 16 + v4) :: p.1, p.2))
            | _, _, _, _ => none
        | e :: r2 =>
            match unescChar e with
            | some d => (parseStrBody r2).map (fun p => (d :: p.1, p.2))
            | none => none
        | [] => none
      else if c.toNat < 32 then none
      else (parseStrBody r).map (fun p => (c :: p.1, p.2))

mutual

/-- Parse one JSON value.  The fuel argument only serves termination; the
top-level entry point passes more fuel than the input length, which is always
enough (each recursive call is preceded by consuming at least one character). -/
def parseJVal : Nat → List Char → Option (Jval × List Char)
  | 0, _ => none
  | fuel + 1, cs =>
      match dropWs cs with
      | 'n' :: 'u' :: 'l' :: 'l' :: r => some (.jnull, r)
      | 't' :: 'r' :: 'u' :: 'e' :: r => some (.jbool true, r)
      | 'f' :: 'a' :: 'l' :: 's' :: 'e' :: r => some (.jbool false, r)
      | '"' :: r => (parseStrBody r).map (fun p => (.jstr (String.mk p.1), p.2))
      | '[' :: r =>
          (match dropWs r with
           | [] => none
           | c2 :: r2 =>
               if c2 = ']' then some (.jarr [], r2)
               else (parseItems fuel (c2 :: r2)).map (fun p => (.jarr p.1, p.2)))
      | c :: r =>
          if c = lcurly then
            match dropWs r with
            | [] => none
            | c2 :: r2 =>
                if c2 = rcurly then some (.jobj [], r2)
                else (parseMembers fuel (c2 :: r2)).map (fun p => (.jobj p.1, p.2))
          else if c = '-' || digit? c then
            (parseIntTok (c :: r)).map (fun p => (.jnum p.1, p.2))
          else none
      | [] => none

/-- Parse one or more comma-separated array elements up to the closing bracket. -/
def parseItems : Nat → List Char → Option (List Jval × List Char)
  | 0, _ => none
  | fuel + 1, cs =>
      match parseJVal fuel cs with
      | none => none
      | some (v, r) =>
          match dropWs r with
          | ',' :: r2 => (parseItems fuel r2).map (fun p => (v :: p.1, p.2))
          | ']' :: r2 => some ([v], r2)
          | _ => none

/-- Parse one or more comma-separated object members up to the closing brace. -/
def parseMembers : Nat → List Char → Option (List (String × Jval) × List Char)
  | 0, _ => none
  | fuel + 1, cs =>
      match dropWs cs with
      | '"' :: r =>
          (match parseStrBody r with
           | none => none
           | some (k, r1) =>
               match dropWs r1 with
               | ':' :: r2 =>
                   (match parseJVal fuel r2 with
                    | none => none
                    | some (v, r3) =>
                        match dropWs r3 with
                        | ',' :: r4 =>
                            (parseMembers fuel r4).map
                              (fun p => ((String.mk k, v) :: p.1, p.2))
                        | c :: r4 =>
                            if c = rcurly then some ([(String.mk k, v)], r4) else none
                        | [] => none)
               | _ => none)
      | _ => none

end

/-- The model of `JSON.parse`: parse one value and require that only
whitespace remains.  Returns `none` where `JSON.parse` throws a SyntaxError
(or where the input leaves the integer fragment of the model). -/
def jsonParse (s : String) : Option Jval :=
  match parseJVal (s.data.length + 1) s.data with
  | some (v, r) => if dropWs r = [] then some v else none
  | none => none

/-! ## The codec round trip, part 1: numbers and strings -/

theorem natCharsF_fuel : ∀ f1 f2 n : Nat, n < f1 → n < f2 → natCharsF f1 n = natCharsF f2 n := by
  intro f1
  induction f1 with
  | zero => intro f2 n h1 h2; omega
  | succ f ih =>
      intro f2 n h1 h2
      cases f2 with
      | zero => omega
      | succ f2 =>
          simp only [natCharsF]
          by_cases h : n < 10
          · simp [h]
          · simp only [if_neg h]
            rw [ih f2 (n / 10) (by omega) (by omega)]

theorem natChars_unfold (n : Nat) :
    natChars n =
      if n < 10 then [Char.ofNat (48 + n)]
      else natChars (n / 10) ++ [Char.ofNat (48 + n % 10)] := by
  show natCharsF (n + 1) n = _
  simp only [natCharsF]
  by_cases h : n < 10
  · simp [h]
  · simp only [if_neg h]
    show natCharsF n (n / 10) ++ _ = natCharsF (n / 10 + 1) (n / 10) ++ _
    rw [natCharsF_fuel n (n / 10 + 1) (n / 10) (by omega) (by omega)]

theorem digitChar_toNat (d : Nat) (h : d < 10) : (Char.ofNat (48 + d)).toNat = 48 + d := by
  interval_cases d <;> decide

theorem digitChar_digit (d : Nat) (h : d < 10) : digit? (Char.ofNat (48 + d)) = true := by
  interval_cases d <;> decide

theorem natChars_ne_nil (n : Nat) : natChars n ≠ [] := by
  rw [natChars_unfold]
  by_cases h : n < 10 <;> simp [h]

theorem natChars_digits (n : Nat) : ∀ c ∈ natChars n, digit? c = true := by
  induction n using Nat.strongRecOn with
  | _ n ih =>
      rw [natChars_unfold]
      by_cases h : n < 10
      · simp only [if_pos h, List.mem_singleton]
        rintro c rfl
        exact digitChar_digit n h
      · simp only [if_neg h, List.mem_append, List.mem_singleton]
        rintro c (hc | rfl)
        · exact ih (n / 10) (by omega) c hc
        · exact digitChar_digit (n % 10) (by omega)

theorem digitsVal_natChars (n : Nat) : digitsVal (natChars n) = n := by
  induction n using Nat.strongRecOn with
  | _ n ih =>
      rw [natChars_unfold]
      by_cases h : n < 10
      · simp only [if_pos h]
        simp [digitsVal, digitChar_toNat n h]
      · simp only [if_neg h]
        rw [digitsVal, List.foldl_append]
        have hpre := ih (n / 10) (by omega)
        rw [digitsVal] at hpre
        rw [hpre]
        simp [digitChar_toNat (n % 10) (by omega)]
        omega

theorem natChars_head_ne_zero :
    ∀ n : Nat, 1 ≤ n → ∀ c t, natChars n = c :: t → c ≠ '0' := by
  intro n
  induction n using Nat.strongRecOn with
  | _ n ih =>
      intro hn c t heq
      rw [natChars_unfold] at heq
      by_cases h : n < 10
      · rw [if_pos h] at heq
        injection heq with h1 h2
        subst h1
        intro he
        have h3 := congrArg Char.toNat he
        rw [digitChar_toNat n h] at h3
        have h4 : Char.toNat '0' = 48 := by decide
        omega
      · rw [if_neg h] at heq
        obtain ⟨c', t', h'⟩ : ∃ c' t', natChars (n / 10) = c' :: t' := by
          cases hh : natChars (n / 10) with
          | nil => exact absurd hh (natChars_ne_nil _)
          | cons a b => exact ⟨a, b, rfl⟩
        rw [h', List.cons_append] at heq
        injection heq with h1 h2
        subst h1
        exact ih (n / 10) (by omega) (by omega) c' t' h'

theorem leadingZero_natChars (n : Nat) : leadingZero (natChars n) = false := by
  by_cases h : n < 10
  · rw [natChars_unfold, if_pos h]
    rfl
  · rw [natChars_unfold, if_neg h]
    obtain ⟨c', t', h'⟩ : ∃ c' t', natChars (n / 10) = c' :: t' := by
      cases hh : natChars (n / 10) with
      | nil => exact absurd hh (natChars_ne_nil _)
      | cons a b => exact ⟨a, b, rfl⟩
    have hne : c' ≠ '0' := natChars_head_ne_zero (n / 10) (by omega) c' t' h'
    rw [h', List.cons_append]
    cases t' <;> simp [leadingZero, hne]

/-- Predicate: the list does not begin with a decimal digit. -/
def notDigitStart : List Char → Prop
  | [] => True
  | c :: _ => digit? c = false

/-- Predicate: the list cannot extend a JSON number token (it is empty or
begins with a character that is no digit and none of the fraction or
exponent markers). -/
def numEnd : List Char → Prop
  | [] => True
  | c :: _ => digit? c = false ∧ c ≠ '.' ∧ c ≠ 'e' ∧ c ≠ 'E'

theorem numEnd_notDigitStart : ∀ {rest : List Char}, numEnd rest → notDigitStart rest
  | [], _ => trivial
  | _ :: _, h => h.1

theorem grabDigits_none {cs : List Char} (h : notDigitStart cs) : grabDigits cs = ([], cs) := by
  cases cs with
  | nil => rfl
  | cons c r =>
      have hc : digit? c = false := h
      simp [grabDigits, hc]

theorem grabDigits_run (ds : List Char) (hds : ∀ c ∈ ds, digit? c = true)
    {rest : List Char} (hrest : notDigitStart rest) :
    grabDigits (ds ++ rest) = (ds, rest) := by
  induction ds with
  | nil => simpa using grabDigits_none hrest
  | cons c t ih =>
      have hc := hds c (List.mem_cons_self ..)
      have ht := ih (fun x hx => hds x (List.mem_cons_of_mem _ hx))
      simp [grabDigits, hc, ht]

theorem digit_char_props {c : Char} (h : digit? c = true) :
    jsonWs c = false ∧ c ≠ '-' ∧ c ≠ '"' ∧ c ≠ '[' ∧ c ≠ ']' ∧ c ≠ lcurly ∧ c ≠ rcurly ∧
    c ≠ ',' ∧ c ≠ '.' ∧ c ≠ 'e' ∧ c ≠ 'E' ∧ c ≠ 'n' ∧ c ≠ 't' ∧ c ≠ 'f' ∧ c ≠ ':' := by
  have hb : 48 ≤ c.toNat ∧ c.toNat ≤ 57 := by simpa [digit?] using h
  refine ⟨?_, ?_, ?_, ?_, ?_, ?_, ?_, ?_, ?_, ?_, ?_, ?_, ?_, ?_, ?_⟩
  · simp only [jsonWs, Bool.or_eq_false_iff, beq_eq_false_iff_ne]
    refine ⟨⟨⟨?_, ?_⟩, ?_⟩, ?_⟩ <;> (rintro rfl; exact absurd hb (by decide))
  all_goals (rintro rfl; exact absurd hb (by decide))

theorem parseNatTok_rt (n : Nat) (rest : List Char) (hr : numEnd rest) :
    parseNatTok (natChars n ++ rest) = some (n, rest) := by
  obtain ⟨c0, t0, h0⟩ : ∃ c t, natChars n = c :: t := by
    cases hh : natChars n with
    | nil => exact absurd hh (natChars_ne_nil _)
    | cons a b => exact ⟨a, b, rfl⟩
  have hg : grabDigits (natChars n ++ rest) = (natChars n, rest) :=
    grabDigits_run _ (natChars_digits n) (numEnd_notDigitStart hr)
  have hlz : leadingZero (natChars n) = false := leadingZero_natChars n
  simp only [parseNatTok, hg]
  rw [h0] at hlz ⊢
  simp only [hlz, Bool.false_eq_true, if_false]
  have hv : digitsVal (c0 :: t0) = n := by rw [← h0]; exact digitsVal_natChars n
  cases rest with
  | nil => simp [hv]
  | cons c r =>
      obtain ⟨hd, h1, h2, h3⟩ := hr
      simp [h1, h2, h3, hv]

theorem parseIntTok_neg_rt (r : List Char) :
    parseIntTok ('-' :: r) = (parseNatTok r).map (fun p => (-(p.1 : Int), p.2)) := rfl

theorem parseIntTok_nonneg (c : Char) (r : List Char) (hc : c ≠ '-') :
    parseIntTok (c :: r) = (parseNatTok (c :: r)).map (fun p => ((p.1 : Int), p.2)) := by
  simp only [parseIntTok]
  simp [hc]

theorem parseIntTok_rt (i : Int) (rest : List Char) (hr : numEnd rest) :
    parseIntTok (intChars i ++ rest) = some (i, rest) := by
  by_cases hi : i < 0
  · rw [intChars, if_pos hi, List.cons_append, parseIntTok_neg_rt,
      parseNatTok_rt i.natAbs rest hr]
    simp only [Option.map_some', Option.some.injEq, Prod.mk.injEq]
    exact ⟨by omega, trivial⟩
  · rw [intChars, if_neg hi]
    obtain ⟨c0, t0, h0⟩ : ∃ c t, natChars i.natAbs = c :: t := by
      cases hh : natChars i.natAbs with
      | nil => exact absurd hh (natChars_ne_nil _)
      | cons a b => exact ⟨a, b, rfl⟩
    have hdig : digit? c0 = true := by
      have := natChars_digits i.natAbs
      rw [h0] at this
      exact this c0 (List.mem_cons_self ..)
    have hc0 : c0 ≠ '-' := (digit_char_props hdig).2.1
    rw [h0, List.cons_append, parseIntTok_nonneg c0 _ hc0, ← List.cons_append, ← h0,
      parseNatTok_rt i.natAbs rest hr]
    simp only [Option.map_some', Option.some.injEq, Prod.mk.injEq]
    exact ⟨by omega, trivial⟩

theorem hexDigitVal_hexDigitChar (d : Nat) (h : d < 16) :
    hexDigitVal? (hexDigitChar d) = some d := by
  interval_cases d <;> decide

theorem parseStrBody_quote (r : List Char) : parseStrBody ('"' :: r) = some ([], r) := by
  rw [parseStrBody.eq_def]
  rfl

theorem parseStrBody_plain (c : Char) (r : List Char) (h1 : c ≠ '"') (h2 : c ≠ '\\')
    (h3 : ¬c.toNat < 32) :
    parseStrBody (c :: r) = (parseStrBody r).map (fun p => (c :: p.1, p.2)) := by
  rw [parseStrBody.eq_def]
  simp only [if_neg h1, if_neg h2, if_neg h3]

theorem parseStrBody_u (a b : Char) (r : List Char) (va vb : Nat)
    (ha : hexDigitVal? a = some va) (hb : hexDigitVal? b = some vb) :
    parseStrBody ('\\' :: 'u' :: '0' :: '0' :: a :: b :: r) =
      (parseStrBody r).map
        (fun p => (Char.ofNat ((((0:Nat) * 16 + 0) * 16 + va) * 16 + vb) :: p.1, p.2)) := by
  rw [parseStrBody.eq_def]
  simp only [if_neg (show ¬(('\\' : Char) = '"') by decide),
    show hexDigitVal? '0' = some 0 from rfl, ha, hb]
  simp

theorem parseStrBody_escChar (c : Char) (rest : List Char) :
    parseStrBody (escChar c ++ rest) = (parseStrBody rest).map (fun p => (c :: p.1, p.2)) := by
  by_cases h1 : c = '"'
  · subst h1; rfl
  by_cases h2 : c = '\\'
  · subst h2; rfl
  by_cases h3 : c = Char.ofNat 8
  · subst h3; rfl
  by_cases h4 : c = '\t'
  · subst h4; rfl
  by_cases h5 : c = '\n'
  · subst h5; rfl
  by_cases h6 : c = Char.ofNat 12
  · subst h6; rfl
  by_cases h7 : c = '\r'
  · subst h7; rfl
  by_cases h8 : c.toNat < 32
  · have hesc : escChar c =
        ['\\', 'u', '0', '0', hexDigitChar (c.toNat / 16), hexDigitChar (c.toNat % 16)] := by
      simp [escChar, h1, h2, h3, h4, h5, h6, h7, h8]
    rw [hesc]
    have hhi : c.toNat / 16 < 16 := by omega
    have hlo : c.toNat % 16 < 16 := by omega
    simp only [List.cons_append, List.nil_append]
    rw [parseStrBody_u _ _ _ _ _ (hexDigitVal_hexDigitChar _ hhi) (hexDigitVal_hexDigitChar _ hlo)]
    have harith : ((((0:Nat) * 16 + 0) * 16 + c.toNat / 16) * 16 + c.toNat % 16) = c.toNat := by
      omega
    rw [harith, Char.ofNat_toNat]
  · have hesc : escChar c = [c] := by
      simp [escChar, h1, h2, h3, h4, h5, h6, h7, h8]
    rw [hesc, List.cons_append, List.nil_append]
    exact parseStrBody_plain c rest h1 h2 h8

theorem parseStrBody_escStr (l : List Char) (rest : List Char) :
    parseStrBody (l.flatMap escChar ++ '"' :: rest) = some (l, rest) := by
  induction l with
  | nil =>
      simp only [List.flatMap_nil, List.nil_append]
      exact parseStrBody_quote rest
  | cons c t ih =>
      rw [List.flatMap_cons, List.append_assoc, parseStrBody_escChar, ih]
      rfl

/-! ## The codec round trip, part 2: whole values -/

theorem stringifyV_shape (x : Jval) :
    ∃ c t, stringifyV x = c :: t ∧ jsonWs c = false ∧ c ≠ ']' := by
  cases x with
  | jnull => exact ⟨'n', _, rfl, by decide, by decide⟩
  | jbool b =>
      cases b with
      | true => exact ⟨'t', _, rfl, by decide, by decide⟩
      | false => exact ⟨'f', _, rfl, by decide, by decide⟩
  | jnum n =>
      by_cases hn : n < 0
      · refine ⟨'-', natChars n.natAbs, ?_, by decide, by decide⟩
        simp [stringifyV, intChars, hn]
      · obtain ⟨c0, t0, h0⟩ : ∃ c t, natChars n.natAbs = c :: t := by
          cases hh : natChars n.natAbs with
          | nil => exact absurd hh (natChars_ne_nil _)
          | cons a b => exact ⟨a, b, rfl⟩
        have hdig : digit? c0 = true := by
          have := natChars_digits n.natAbs
          rw [h0] at this
          exact this c0 (List.mem_cons_self ..)
        obtain ⟨hws, -, -, -, hrb, -⟩ := digit_char_props hdig
        refine ⟨c0, t0, ?_, hws, hrb⟩
        simp [stringifyV, intChars, hn, h0]
  | jstr s => exact ⟨'"', _, rfl, by decide, by decide⟩
  | jarr items => exact ⟨'[', _, rfl, by decide, by decide⟩
  | jobj members => exact ⟨lcurly, _, rfl, by decide, by decide⟩

theorem stringifyV_length_pos (x : Jval) : 1 ≤ (stringifyV x).length := by
  obtain ⟨c, t, he, -, -⟩ := stringifyV_shape x
  simp [he]

theorem dropWs_stringifyV (x : Jval) (rest : List Char) :
    dropWs (stringifyV x ++ rest) = stringifyV x ++ rest := by
  obtain ⟨c, t, he, hws, -⟩ := stringifyV_shape x
  rw [he, List.cons_append, dropWs]
  simp [hws]

theorem stringifyItems_cons (x : Jval) (xs : List Jval) :
    ∃ t, stringifyItems (x :: xs) = stringifyV x ++ t := by
  cases xs with
  | nil => exact ⟨[], by simp [stringifyItems]⟩
  | cons y ys => exact ⟨',' :: stringifyItems (y :: ys), by simp [stringifyItems]⟩

theorem stringifyMembers_head (k : String) (v : Jval) (ms : List (String × Jval)) :
    ∃ t, stringifyMembers ((k, v) :: ms) = '"' :: t := by
  cases ms with
  | nil => exact ⟨escStr k ++ '"' :: ':' :: stringifyV v, by simp [stringifyMembers]⟩
  | cons m rest =>
      exact ⟨(escStr k ++ '"' :: ':' :: stringifyV v) ++ ',' :: stringifyMembers (m :: rest),
        by simp [stringifyMembers]⟩

theorem numEnd_nil : numEnd [] := trivial

theorem numEnd_rbracket (r : List Char) : numEnd (']' :: r) :=
  ⟨by decide, by decide, by decide, by decide⟩

theorem numEnd_comma (r : List Char) : numEnd (',' :: r) :=
  ⟨by decide, by decide, by decide, by decide⟩

theorem numEnd_rcurly (r : List Char) : numEnd (rcurly :: r) :=
  ⟨by decide, by decide, by decide, by decide⟩

theorem dropWs_not_ws {c : Char} (h : jsonWs c = false) (r : List Char) :
    dropWs (c :: r) = c :: r := by
  rw [dropWs]
  simp [h]

theorem parseJVal_null (fuel : Nat) (r : List Char) :
    parseJVal (fuel + 1) ('n' :: 'u' :: 'l' :: 'l' :: r) = some (.jnull, r) := by
  rw [parseJVal.eq_def]
  rfl

theorem parseJVal_true (fuel : Nat) (r : List Char) :
    parseJVal (fuel + 1) ('t' :: 'r' :: 'u' :: 'e' :: r) = some (.jbool true, r) := by
  rw [parseJVal.eq_def]
  rfl

theorem parseJVal_false (fuel : Nat) (r : List Char) :
    parseJVal (fuel + 1) ('f' :: 'a' :: 'l' :: 's' :: 'e' :: r) = some (.jbool false, r) := by
  rw [parseJVal.eq_def]
  rfl

theorem parseJVal_quote (fuel : Nat) (r : List Char) :
    parseJVal (fuel + 1) ('"' :: r) =
      (parseStrBody r).map (fun p => (.jstr (String.mk p.1), p.2)) := by
  rw [parseJVal.eq_def]
  rfl

theorem parseJVal_minus (fuel : Nat) (r : List Char) :
    parseJVal (fuel + 1) ('-' :: r) =
      (parseIntTok ('-' :: r)).map (fun p => (.jnum p.1, p.2)) := by
  rw [parseJVal.eq_def]
  rfl

theorem parseJVal_lbracket (fuel : Nat) (r : List Char) (c2 : Char) (r2 : List Char)
    (hw : dropWs r = c2 :: r2) :
    parseJVal (fuel + 1) ('[' :: r) =
      (if c2 = ']' then some (.jarr [], r2)
       else (parseItems fuel (c2 :: r2)).map (fun p => (.jarr p.1, p.2))) := by
  rw [parseJVal.eq_def]
  simp only [dropWs_not_ws (show jsonWs '[' = false by decide), hw]

theorem parseJVal_lcurly (fuel : Nat) (r : List Char) (c2 : Char) (r2 : List Char)
    (hw : dropWs r = c2 :: r2) :
    parseJVal (fuel + 1) (lcurly :: r) =
      (if c2 = rcurly then some (.jobj [], r2)
       else (parseMembers fuel (c2 :: r2)).map (fun p => (.jobj p.1, p.2))) := by
  rw [parseJVal.eq_def]
  simp only [dropWs_not_ws (show jsonWs lcurly = false by decide)]
  split
  · rename_i heq; injection heq with h1 h2; exact absurd h1 (by decide)
  · rename_i heq; injection heq with h1 h2; exact absurd h1 (by decide)
  · rename_i heq; injection heq with h1 h2; exact absurd h1 (by decide)
  · rename_i heq; injection heq with h1 h2; exact absurd h1 (by decide)
  · rename_i heq; injection heq with h1 h2; exact absurd h1 (by decide)
  · rename_i c9 r9 heq
    injection heq with he1 he2
    subst he1
    subst he2
    rw [if_pos rfl, hw]
  · rename_i heq; exact absurd heq (by simp)

theorem parseJVal_numCase (fuel : Nat) (c : Char) (t : List Char)
    (hws : jsonWs c = false) (hn : c ≠ 'n') (ht : c ≠ 't') (hf2 : c ≠ 'f')
    (hq : c ≠ '"') (hbk : c ≠ '[') (hcu : c ≠ lcurly)
    (hnum : (c == '-' || digit? c) = true) :
    parseJVal (fuel + 1) (c :: t) = (parseIntTok (c :: t)).map (fun p => (.jnum p.1, p.2)) := by
  rw [parseJVal.eq_def]
  simp only [dropWs_not_ws hws]
  split
  · rename_i heq; injection heq with h1 h2; exact absurd h1 hn
  · rename_i heq; injection heq with h1 h2; exact absurd h1 ht
  · rename_i heq; injection heq with h1 h2; exact absurd h1 hf2
  · rename_i heq; injection heq with h1 h2; exact absurd h1 hq
  · rename_i heq; injection heq with h1 h2; exact absurd h1 hbk
  · rename_i c2 r2 heq
    injection heq with he1 he2
    subst he1
    subst he2
    rw [if_neg hcu, if_pos (show (decide (c = '-') || digit? c) = true from hnum)]
  · rename_i heq; exact absurd heq (by simp)

theorem parseItems_succ (fuel : Nat) (cs : List Char) :
    parseItems (fuel + 1) cs =
      (match parseJVal fuel cs with
       | none => none
       | some (v, r) =>
           match dropWs r with
           | ',' :: r2 => (parseItems fuel r2).map (fun p => (v :: p.1, p.2))
           | ']' :: r2 => some ([v], r2)
           | _ => none) := by
  rw [parseItems.eq_def]

theorem parseMembers_succ (fuel : Nat) (cs : List Char) :
    parseMembers (fuel + 1) cs =
      (match dropWs cs with
       | '"' :: r =>
           (match parseStrBody r with
            | none => none
            | some (k, r1) =>
                match dropWs r1 with
                | ':' :: r2 =>
                    (match parseJVal fuel r2 with
                     | none => none
                     | some (v, r3) =>
                         match dropWs r3 with
                         | ',' :: r4 =>
                             (parseMembers fuel r4).map
                               (fun p => ((String.mk k, v) :: p.1, p.2))
                         | c :: r4 =>
                             if c = rcurly then some ([(String.mk k, v)], r4) else none
                         | [] => none)
                | _ => none)
       | _ => none) := by
  rw [parseMembers.eq_def]

mutual

theorem rtVal : ∀ (x : Jval) (fuel : Nat) (rest : List Char),
    (stringifyV x).length < fuel → numEnd rest →
    parseJVal fuel (stringifyV x ++ rest) = some (x, rest)
  | .jnull, fuel, rest, hf, _ => by
      cases fuel with
      | zero => exact absurd hf (Nat.not_lt_zero _)
      | succ f => exact parseJVal_null f rest
  | .jbool true, fuel, rest, hf, _ => by
      cases fuel with
      | zero => exact absurd hf (Nat.not_lt_zero _)
      | succ f => exact parseJVal_true f rest
  | .jbool false, fuel, rest, hf, _ => by
      cases fuel with
      | zero => exact absurd hf (Nat.not_lt_zero _)
      | succ f => exact parseJVal_false f rest
  | .jnum n, fuel, rest, hf, hr => by
      cases fuel with
      | zero => exact absurd hf (Nat.not_lt_zero _)
      | succ f =>
          by_cases hn : n < 0
          · have hic : stringifyV (.jnum n) = '-' :: natChars n.natAbs := by
              simp [stringifyV, intChars, hn]
            have hit := parseIntTok_rt n rest hr
            rw [show intChars n = '-' :: natChars n.natAbs from by simp [intChars, hn],
              List.cons_append] at hit
            rw [hic, List.cons_append, parseJVal_minus, hit]
            rfl
          · have hic : stringifyV (.jnum n) = natChars n.natAbs := by
              simp [stringifyV, intChars, hn]
            obtain ⟨c0, t0, h0⟩ : ∃ c t, natChars n.natAbs = c :: t := by
              cases hh : natChars n.natAbs with
              | nil => exact absurd hh (natChars_ne_nil _)
              | cons a b => exact ⟨a, b, rfl⟩
            have hdig : digit? c0 = true := by
              have := natChars_digits n.natAbs
              rw [h0] at this
              exact this c0 (List.mem_cons_self ..)
            obtain ⟨hws, -, hq, hbk, -, hcu, -, -, -, -, -, hn', ht', hf', -⟩ :=
              digit_char_props hdig
            have hit := parseIntTok_rt n rest hr
            rw [show intChars n = natChars n.natAbs from by simp [intChars, hn]] at hit
            rw [hic, h0, List.cons_append,
              parseJVal_numCase f c0 _ hws hn' ht' hf' hq hbk hcu (by simp [hdig]),
              ← List.cons_append, ← h0, hit]
            rfl
  | .jstr s, fuel, rest, hf, _ => by
      cases fuel with
      | zero => exact absurd hf (Nat.not_lt_zero _)
      | succ f =>
          have h1 : stringifyV (.jstr s) ++ rest = '"' :: (escStr s ++ '"' :: rest) := by
            simp [stringifyV]
          rw [h1, parseJVal_quote, escStr, parseStrBody_escStr]
          rfl
  | .jarr [], fuel, rest, hf, _ => by
      cases fuel with
      | zero => exact absurd hf (Nat.not_lt_zero _)
      | succ f =>
          have h1 : stringifyV (.jarr []) ++ rest = '[' :: (']' :: rest) := by
            simp [stringifyV, stringifyItems]
          rw [h1, parseJVal_lbracket f _ ']' rest (dropWs_not_ws (by decide) rest), if_pos rfl]
  | .jarr (x :: xs), fuel, rest, hf, _ => by
      cases fuel with
      | zero => exact absurd hf (Nat.not_lt_zero _)
      | succ f =>
          obtain ⟨tl, htl⟩ := stringifyItems_cons x xs
          obtain ⟨c0, t0, h0, hws0, hrb0⟩ := stringifyV_shape x
          have harr : stringifyV (.jarr (x :: xs)) ++ rest
              = '[' :: (stringifyItems (x :: xs) ++ ']' :: rest) := by
            simp [stringifyV]
          have hcons : stringifyItems (x :: xs) ++ ']' :: rest
              = c0 :: (t0 ++ tl ++ ']' :: rest) := by
            rw [htl, h0]
            simp
          have hdw : dropWs (stringifyItems (x :: xs) ++ ']' :: rest)
              = c0 :: (t0 ++ tl ++ ']' :: rest) := by
            rw [hcons]
            exact dropWs_not_ws hws0 _
          have hlen : (stringifyItems (x :: xs)).length + 1 < f := by
            have := congrArg List.length harr
            simp at this
            omega
          rw [harr, parseJVal_lbracket f _ c0 _ hdw, if_neg hrb0, ← hcons,
            rtItems x xs f rest hlen]
          rfl
  | .jobj [], fuel, rest, hf, _ => by
      cases fuel with
      | zero => exact absurd hf (Nat.not_lt_zero _)
      | succ f =>
          have h1 : stringifyV (.jobj []) ++ rest = lcurly :: (rcurly :: rest) := by
            simp [stringifyV, stringifyMembers]
          rw [h1, parseJVal_lcurly f _ rcurly rest (dropWs_not_ws (by decide) rest),
            if_pos rfl]
  | .jobj ((k, v) :: ms), fuel, rest, hf, _ => by
      cases fuel with
      | zero => exact absurd hf (Nat.not_lt_zero _)
      | succ f =>
          obtain ⟨tm, htm⟩ := stringifyMembers_head k v ms
          have hobj : stringifyV (.jobj ((k, v) :: ms)) ++ rest
              = lcurly :: (stringifyMembers ((k, v) :: ms) ++ rcurly :: rest) := by
            simp [stringifyV]
          have hcons : stringifyMembers ((k, v) :: ms) ++ rcurly :: rest
              = '"' :: (tm ++ rcurly :: rest) := by
            rw [htm]
            simp
          have hdw : dropWs (stringifyMembers ((k, v) :: ms) ++ rcurly :: rest)
              = '"' :: (tm ++ rcurly :: rest) := by
            rw [hcons]
            exact dropWs_not_ws (by decide) _
          have hlen : (stringifyMembers ((k, v) :: ms)).length + 1 < f := by
            have := congrArg List.length hobj
            simp at this
            omega
          rw [hobj, parseJVal_lcurly f _ '"' _ hdw, if_neg (by decide), ← hcons,
            rtMembers (k, v) ms f rest hlen]
          rfl
termination_by x _ _ _ _ => sizeOf x

theorem rtItems : ∀ (x : Jval) (xs : List Jval) (fuel : Nat) (rest : List Char),
    (stringifyItems (x :: xs)).length + 1 < fuel →
    parseItems fuel (stringifyItems (x :: xs) ++ ']' :: rest) = some (x :: xs, rest)
  | x, [], fuel, rest, hf => by
      cases fuel with
      | zero => exact absurd hf (Nat.not_lt_zero _)
      | succ f =>
          have h1 : stringifyItems [x] = stringifyV x := by simp [stringifyItems]
          have hfe : (stringifyV x).length < f := by
            rw [h1] at hf
            omega
          rw [h1, parseItems_succ, rtVal x f (']' :: rest) hfe (numEnd_rbracket rest)]
          rfl
  | x, y :: ys, fuel, rest, hf => by
      cases fuel with
      | zero => exact absurd hf (Nat.not_lt_zero _)
      | succ f =>
          have h1 : stringifyItems (x :: y :: ys)
              = stringifyV x ++ ',' :: stringifyItems (y :: ys) := by
            simp [stringifyItems]
          have hlx := stringifyV_length_pos x
          have hfe : (stringifyV x).length < f := by
            rw [h1] at hf
            simp at hf
            omega
          have hfi : (stringifyItems (y :: ys)).length + 1 < f := by
            rw [h1] at hf
            simp at hf
            omega
          rw [h1, List.append_assoc, List.cons_append, parseItems_succ,
            rtVal x f (',' :: (stringifyItems (y :: ys) ++ ']' :: rest)) hfe (numEnd_comma _)]
          show (parseItems f (stringifyItems (y :: ys) ++ ']' :: rest)).map
              (fun p : List Jval × List Char => (x :: p.1, p.2)) = _
          rw [rtItems y ys f rest hfi]
          rfl
termination_by x xs _ _ _ => sizeOf x + sizeOf xs

theorem rtMembers : ∀ (kv : String × Jval) (ms : List (String × Jval)) (fuel : Nat)
    (rest : List Char),
    (stringifyMembers (kv :: ms)).length + 1 < fuel →
    parseMembers fuel (stringifyMembers (kv :: ms) ++ rcurly :: rest) = some (kv :: ms, rest)
  | (k, v), [], fuel, rest, hf => by
      cases fuel with
      | zero => exact absurd hf (Nat.not_lt_zero _)
      | succ f =>
          have h1 : stringifyMembers [(k, v)] ++ rcurly :: rest
              = '"' :: (escStr k ++ '"' :: (':' :: (stringifyV v ++ rcurly :: rest))) := by
            simp [stringifyMembers]
          have hfe : (stringifyV v).length < f := by
            have h2 : (stringifyMembers [(k, v)]).length
                = 1 + (escStr k).length + 2 + (stringifyV v).length := by
              simp [stringifyMembers]
              omega
            omega
          rw [h1, parseMembers_succ]
          show (match parseStrBody (escStr k ++ '"' :: (':' :: (stringifyV v ++ rcurly :: rest))) with
                | none => none
                | some (k2, r1) =>
                    match dropWs r1 with
                    | ':' :: r2 =>
                        (match parseJVal f r2 with
                         | none => none
                         | some (v2, r3) =>
                             match dropWs r3 with
                             | ',' :: r4 =>
                                 (parseMembers f r4).map
                                   (fun p : List (String × Jval) × List Char =>
                                     ((String.mk k2, v2) :: p.1, p.2))
                             | c :: r4 =>
                                 if c = rcurly then some ([(String.mk k2, v2)], r4) else none
                             | [] => none)
                    | _ => none) = _
          rw [escStr, parseStrBody_escStr]
          show (match dropWs (':' :: (stringifyV v ++ rcurly :: rest)) with
                | ':' :: r2 =>
                    (match parseJVal f r2 with
                     | none => none
                     | some (v2, r3) =>
                         match dropWs r3 with
                         | ',' :: r4 =>
                             (parseMembers f r4).map
                               (fun p : List (String × Jval) × List Char =>
                                 ((String.mk k.data, v2) :: p.1, p.2))
                         | c :: r4 =>
                             if c = rcurly then some ([(String.mk k.data, v2)], r4) else none
                         | [] => none)
                | _ => none) = _
          rw [dropWs_not_ws (show jsonWs ':' = false by decide) (stringifyV v ++ rcurly :: rest)]
          show (match parseJVal f (stringifyV v ++ rcurly :: rest) with
                | none => none
                | some (v2, r3) =>
                    match dropWs r3 with
                    | ',' :: r4 =>
                        (parseMembers f r4).map
                          (fun p : List (String × Jval) × List Char =>
                            ((String.mk k.data, v2) :: p.1, p.2))
                    | c :: r4 =>
                        if c = rcurly then some ([(String.mk k.data, v2)], r4) else none
                    | [] => none) = _
          rw [rtVal v f (rcurly :: rest) hfe (numEnd_rcurly rest)]
          show (match dropWs (rcurly :: rest) with
                | ',' :: r4 =>
                    (parseMembers f r4).map
                      (fun p : List (String × Jval) × List Char =>
                        ((String.mk k.data, v) :: p.1, p.2))
                | c :: r4 => if c = rcurly then some ([(String.mk k.data, v)], r4) else none
                | [] => none) = _
          rw [dropWs_not_ws (show jsonWs rcurly = false by decide) rest]
          show (if rcurly = rcurly then some ([(String.mk k.data, v)], rest) else none)
              = some ([(k, v)], rest)
          rw [if_pos rfl]
  | (k, v), m :: ms, fuel, rest, hf => by
      cases fuel with
      | zero => exact absurd hf (Nat.not_lt_zero _)
      | succ f =>
          have h1 : stringifyMembers ((k, v) :: m :: ms) ++ rcurly :: rest
              = '"' :: (escStr k ++ '"' :: (':' :: (stringifyV v
                  ++ ',' :: (stringifyMembers (m :: ms) ++ rcurly :: rest)))) := by
            simp [stringifyMembers]
          have hfe : (stringifyV v).length < f := by
            have h2 : (stringifyMembers ((k, v) :: m :: ms)).length
                = 1 + (escStr k).length + 2 + (stringifyV v).length + 1
                  + (stringifyMembers (m :: ms)).length := by
              simp [stringifyMembers]
              omega
            omega
          have hfm : (stringifyMembers (m :: ms)).length + 1 < f := by
            have h2 : (stringifyMembers ((k, v) :: m :: ms)).length
                = 1 + (escStr k).length + 2 + (stringifyV v).length + 1
                  + (stringifyMembers (m :: ms)).length := by
              simp [stringifyMembers]
              omega
            omega
          rw [h1, parseMembers_succ]
          show (match parseStrBody (escStr k ++ '"' :: (':' :: (stringifyV v
                  ++ ',' :: (stringifyMembers (m :: ms) ++ rcurly :: rest)))) with
                | none => none
                | some (k2, r1) =>
                    match dropWs r1 with
                    | ':' :: r2 =>
                        (match parseJVal f r2 with
                         | none => none
                         | some (v2, r3) =>
                             match dropWs r3 with
                             | ',' :: r4 =>
                                 (parseMembers f r4).map
                                   (fun p : List (String × Jval) × List Char =>
                                     ((String.mk k2, v2) :: p.1, p.2))
                             | c :: r4 =>
                                 if c = rcurly then some ([(String.mk k2, v2)], r4) else none
                             | [] => none)
                    | _ => none) = _
          rw [escStr, parseStrBody_escStr]
          show (match dropWs (':' :: (stringifyV v
                  ++ ',' :: (stringifyMembers (m :: ms) ++ rcurly :: rest))) with
                | ':' :: r2 =>
                    (match parseJVal f r2 with
                     | none => none
                     | some (v2, r3) =>
                         match dropWs r3 with
                         | ',' :: r4 =>
                             (parseMembers f r4).map
                               (fun p : List (String × Jval) × List Char =>
                                 ((String.mk k.data, v2) :: p.1, p.2))
                         | c :: r4 =>
                             if c = rcurly then some ([(String.mk k.data, v2)], r4) else none
                         | [] => none)
                | _ => none) = _
          rw [dropWs_not_ws (show jsonWs ':' = false by decide)
            (stringifyV v ++ ',' :: (stringifyMembers (m :: ms) ++ rcurly :: rest))]
          show (match parseJVal f (stringifyV v
                  ++ ',' :: (stringifyMembers (m :: ms) ++ rcurly :: rest)) with
                | none => none
                | some (v2, r3) =>
                    match dropWs r3 with
                    | ',' :: r4 =>
                        (parseMembers f r4).map
                          (fun p : List (String × Jval) × List Char =>
                            ((String.mk k.data, v2) :: p.1, p.2))
                    | c :: r4 =>
                        if c = rcurly then some ([(String.mk k.data, v2)], r4) else none
                    | [] => none) = _
          rw [rtVal v f (',' :: (stringifyMembers (m :: ms) ++ rcurly :: rest)) hfe
            (numEnd_comma _)]
          show (match dropWs (',' :: (stringifyMembers (m :: ms) ++ rcurly :: rest)) with
                | ',' :: r4 =>
                    (parseMembers f r4).map
                      (fun p : List (String × Jval) × List Char =>
                        ((String.mk k.data, v) :: p.1, p.2))
                | c :: r4 => if c = rcurly then some ([(String.mk k.data, v)], r4) else none
                | [] => none) = _
          rw [dropWs_not_ws (show jsonWs ',' = false by decide)
            (stringifyMembers (m :: ms) ++ rcurly :: rest)]
          show (parseMembers f (stringifyMembers (m :: ms) ++ rcurly :: rest)).map
              (fun p : List (String × Jval) × List Char => ((String.mk k.data, v) :: p.1, p.2)) = _
          rw [rtMembers m ms f rest hfm]
          rfl
termination_by kv ms _ _ _ => sizeOf kv + sizeOf ms

end

theorem jsonParse_stringify (x : Jval) : jsonParse (jsonStringify x) = some x := by
  have h2 := rtVal x ((stringifyV x).length + 1) [] (by omega) numEnd_nil
  rw [List.append_nil] at h2
  unfold jsonParse jsonStringify
  simp only [show ∀ l : List Char, (String.mk l).data = l from fun _ => rfl]
  rw [h2]
  rfl

/-! ## Body encoding: UTF-8 bytes, hex, and the hex2ascii module -/

/-- UTF-8 bytes of one character, as produced by `Buffer.from` with the
default encoding. -/
def utf8Bytes (c : Char) : List Nat :=
  let n := c.toNat
  if n < 128 then [n]
  else if n < 2048 then [192 + n / 64, 128 + n % 64]
  else if n < 65536 then [224 + n / 4096, 128 + n / 64 % 64, 128 + n % 64]
  else [240 + n / 262144, 128 + n / 4096 % 64, 128 + n / 64 % 64, 128 + n % 64]

/-- UTF-8 bytes of a character list. -/
def strBytes (l : List Char) : List Nat := l.flatMap utf8Bytes

/-- The two lowercase hexadecimal digit characters of a byte. -/
def hexPair (b : Nat) : List Char := [hexDigitChar (b / 16), hexDigitChar (b % 16)]

/-- Lowercase hexadecimal rendering of a byte list (Buffer.toString with the
hex encoding). -/
def bytesToHex (bs : List Nat) : List Char := bs.flatMap hexPair

/-- The body encoding performed by the Block constructor:
`Buffer.from(JSON.stringify(data)).toString(hex)`. -/
def encodeBody (x : Jval) : String := String.mk (bytesToHex (strBytes (stringifyV x)))

/-- The npm hex2ascii module, modelled byte for byte: successive PAIRS of hex
digits are converted with `parseInt(-, 16)` and `String.fromCharCode`.
parseInt keeps a valid first digit when the second is invalid and yields NaN
(hence character code 0) when the first digit is invalid; a trailing lone
digit is converted on its own.  Note this is NOT a UTF-8 decode: each byte
becomes one character. -/
def hex2asciiChars : List Char → List Char
  | [] => []
  | [c] => [Char.ofNat (match hexDigitVal? c with | some v => v | none => 0)]
  | c1 :: c2 :: r =>
      Char.ofNat (match hexDigitVal? c1, hexDigitVal? c2 with
        | some v1, some v2 => 16 * v1 + v2
        | some v1, none => v1
        | none, _ => 0) :: hex2asciiChars r

/-- The hex2ascii module on strings. -/
def hex2ascii (s : String) : String := String.mk (hex2asciiChars s.data)

theorem char_toNat_lt (c : Char) : c.toNat < 1114112 := by
  have h := c.valid
  have h2 : c.toNat = c.val.toNat := rfl
  rcases h with h | h <;> omega

theorem utf8Bytes_lt (c : Char) : ∀ b ∈ utf8Bytes c, b < 256 := by
  intro b hb
  have hc := char_toNat_lt c
  simp only [utf8Bytes] at hb
  split_ifs at hb with h1 h2 h3
  · simp at hb
    omega
  · simp at hb
    rcases hb with rfl | rfl <;> omega
  · simp at hb
    rcases hb with rfl | rfl | rfl <;> omega
  · simp at hb
    rcases hb with rfl | rfl | rfl | rfl <;> omega

theorem utf8Bytes_ascii {c : Char} (h : c.toNat < 128) : utf8Bytes c = [c.toNat] := by
  simp [utf8Bytes, h]

theorem hex2ascii_bytesToHex (bs : List Nat) (hb : ∀ b ∈ bs, b < 256) :
    hex2asciiChars (bytesToHex bs) = bs.map Char.ofNat := by
  induction bs with
  | nil => rfl
  | cons b rest ih =>
      have hblt : b < 256 := hb b (List.mem_cons_self ..)
      have h1 : bytesToHex (b :: rest)
          = hexDigitChar (b / 16) :: hexDigitChar (b % 16) :: bytesToHex rest := by
        simp [bytesToHex, hexPair]
      rw [h1, hex2asciiChars,
        hexDigitVal_hexDigitChar (b / 16) (by omega), hexDigitVal_hexDigitChar (b % 16) (by omega),
        ih (fun x hx => hb x (List.mem_cons_of_mem _ hx))]
      show Char.ofNat (16 * (b / 16) + b % 16) :: List.map Char.ofNat rest = _
      have : 16 * (b / 16) + b % 16 = b := by omega
      rw [this]
      rfl

/-- All characters in the list are seven-bit. -/
def asciiChars (l : List Char) : Bool := l.all (fun c => decide (c.toNat < 128))

theorem strBytes_ascii (l : List Char) (h : asciiChars l = true) :
    (strBytes l).map Char.ofNat = l := by
  induction l with
  | nil => rfl
  | cons c rest ih =>
      simp only [asciiChars, List.all_cons, Bool.and_eq_true, decide_eq_true_eq] at h
      have h1 : strBytes (c :: rest) = c.toNat :: strBytes rest := by
        simp [strBytes, utf8Bytes_ascii h.1]
      rw [h1, List.map_cons, Char.ofNat_toNat]
      rw [ih (by simp [asciiChars, h.2])]

theorem decodeBody_encodeBody (x : Jval) (h : asciiChars (stringifyV x) = true) :
    jsonParse (hex2ascii (encodeBody x)) = some x := by
  have h1 : hex2ascii (encodeBody x) = jsonStringify x := by
    unfold hex2ascii encodeBody jsonStringify
    have h2 : (String.mk (bytesToHex (strBytes (stringifyV x)))).data
        = bytesToHex (strBytes (stringifyV x)) := rfl
    rw [h2, hex2ascii_bytesToHex _ (by
      intro b hb
      simp only [strBytes, List.mem_flatMap] at hb
      obtain ⟨c, -, hc⟩ := hb
      exact utf8Bytes_lt c b hc)]
    rw [strBytes_ascii _ h]
  rw [h1, jsonParse_stringify]

/-! ## The Block class (src/block.js) -/

/-- The errors `getBData()` can reject with: the SyntaxError thrown by
`JSON.parse` on a malformed body, and the string rejection
"Cannot return data for Genesis Block!". -/
inductive BDataErr where
  | jsonSyntaxError
  | genesisBlock
deriving DecidableEq

/-- A Block object.  `time` is a string because `_addBlock` assigns
`getTime().toString().slice(0, -3)` before the block is ever hashed; the
numeric constructor default 0 is modelled as "0" (the only observable
difference would be through the hash function, which this development
quantifies over). -/
structure Block where
  hash : Option String
  height : Int
  body : String
  time : String
  previousBlockHash : Option String
deriving DecidableEq

/-- The Block constructor, `new Block(data)`: body is the hex-of-UTF8-JSON
encoding of the payload, every other field takes its default. -/
def Block.new (data : Jval) : Block :=
  { hash := none, height := 0, body := encodeBody data, time := "0",
    previousBlockHash := none }

/-- One call of `validate()`, returning the resolved boolean together with
the block as the method leaves it: the method saves the current hash, nulls
the hash field, recomputes the digest, restores the hash field, and resolves
true exactly when the stored hash is a string equal to the recomputed one
(a null stored hash compares unequal to any string). -/
def Block.validateImpl (H : Block → String) (b : Block) : Bool × Block :=
  let currentHash := b.hash
  let self1 := { b with hash := none }
  let newHash := H self1
  let self2 := { self1 with hash := currentHash }
  (currentHash == some newHash, self2)

/-- The boolean `validate()` resolves with. -/
def Block.validate (H : Block → String) (b : Block) : Bool := (Block.validateImpl H b).1

/-- `getBData()`: decode the body with hex2ascii, `JSON.parse` the result (a
parse failure throws inside the executor, so the promise rejects with the
SyntaxError BEFORE the height test is reached), then reject for height 0 and
resolve with the decoded data otherwise. -/
def Block.getBData (b : Block) : Except BDataErr Jval :=
  match jsonParse (hex2ascii b.body) with
  | none => .error .jsonSyntaxError
  | some data => if b.height = 0 then .error .genesisBlock else .ok data

/-! ## The Blockchain class (src/blockchain.js) -/

/-- Entries of the errorLog `validateChain()` resolves with.
`blockInvalid b` stands for the pushed string
`Block (JSON.stringify of b) is not valid`; `brokenLink prevHash refHash`
stands for the Error message naming the hash of the previous block and the
previousBlockHash stored in the current block. -/
inductive ChainErr where
  | blockInvalid (b : Block)
  | brokenLink (prevHash : Option String) (refHash : Option String)
deriving DecidableEq

/-- Chain state: the `chain` array and the `height` field (-1 when empty). -/
structure ChainState where
  chain : List Block
  height : Int
deriving DecidableEq

/-- The broken-link errors the validateChain loop pushes synchronously, in
index order: one entry for every index i > 0 with
`chain[i].previousBlockHash != chain[i-1].hash`. -/
def linkErrorLog : List Block → List ChainErr
  | [] => []
  | [_] => []
  | a :: b :: r =>
      (if b.previousBlockHash ≠ a.hash then [ChainErr.brokenLink a.hash b.previousBlockHash]
       else [])
        ++ linkErrorLog (b :: r)

/-- The block-validity errors pushed by the then-callbacks of each
`block.validate()`, in index order.  The catch branch of the source is dead:
`validate()` never rejects. -/
def selfErrorLog (H : Block → String) : List Block → List ChainErr
  | [] => []
  | b :: r =>
      (if Block.validate H b then [] else [ChainErr.blockInvalid b]) ++ selfErrorLog H r

/-- The errorLog an observer of `validateChain()` sees.  The source resolves
the promise with the array while the per-block `validate().then` callbacks
are still queued as microtasks; but each `validate()` promise settles
synchronously inside the loop, so those callbacks are queued IN INDEX ORDER
before any observer of the resolved value can run, and they push into the
same array the promise resolved with.  The observable list is therefore: all
broken-link errors (pushed synchronously by the loop, in index order)
followed by all block-validity errors (pushed by the queued callbacks, in
index order).  The function is total: validateChain never throws, defects
are data in the returned list. -/
def validateChain (H : Block → String) (s : ChainState) : List ChainErr :=
  linkErrorLog s.chain ++ selfErrorLog H s.chain

/-- Lines 68-74 of `_addBlock`: the in-place preparation of the incoming
block object.  `previousBlockHash` is set from the current last element when
the chain is non-empty; `time` is set to the current Unix seconds string
(the `getTime().toString().slice(0, -3)` of the source, supplied as `now`);
`height` is set to `self.height + 1`; finally `hash` is set to the digest of
the block as it stands at that point, its hash field still holding whatever
the caller left there (null for every block the public operations create). -/
def prepareBlock (H : Block → String) (now : Nat) (s : ChainState) (block : Block) : Block :=
  let b1 := match s.chain.getLast? with
    | some prev => { block with previousBlockHash := prev.hash }
    | none => block
  let b2 := { b1 with time := toString now, height := s.height + 1 }
  { b2 with hash := some (H b2) }

/-- `_addBlock(block)`: prepare the block, push it, bump the height, run
validateChain; on any reported error pop the just-pushed block again,
decrement the height and reject with the errorLog, otherwise resolve with
the stored block. -/
def _addBlock (H : Block → String) (now : Nat) (s : ChainState) (block : Block) :
    Except (List ChainErr) Block × ChainState :=
  let b3 := prepareBlock H now s block
  let pushed : ChainState := { chain := s.chain ++ [b3], height := s.height + 1 }
  let errorLog := validateChain H pushed
  if 0 < errorLog.length then
    (.error errorLog, { chain := pushed.chain.dropLast, height := pushed.height - 1 })
  else
    (.ok b3, pushed)

/-- The payload `initializeChain()` passes to the Block constructor. -/
def genesisPayload : Jval := .jobj [("data", .jstr "Genesis Block")]

/-- `initializeChain()`: create and append the genesis block when the chain
is still empty (height -1); a no-op otherwise. -/
def initializeChain (H : Block → String) (now : Nat) (s : ChainState) : ChainState :=
  if s.height = -1 then (_addBlock H now s (Block.new genesisPayload)).2 else s

/-- The Blockchain constructor: chain = [], height = -1, then
initializeChain. -/
def newBlockchain (H : Block → String) (now : Nat) : ChainState :=
  initializeChain H now { chain := [], height := -1 }

/-- The JavaScript parseInt on a string: skip whitespace, an optional sign,
then the maximal decimal digit prefix; NaN (modelled as `none`) when no
digit follows. -/
def jsParseInt (str : String) : Option Int :=
  let l1 := dropWs str.data
  let sp : Bool × List Char := match l1 with
    | '-' :: r => (true, r)
    | '+' :: r => (false, r)
    | _ => (false, l1)
  match grabDigits sp.2 with
  | ([], _) => none
  | (ds, _) => some (if sp.1 then -(digitsVal ds : Int) else (digitsVal ds : Int))

/-- Splitting a character list at every occurrence of a separator, with the
semantics of the JavaScript String.prototype.split: the empty string yields
one empty field, and adjacent separators yield empty fields. -/
def splitChars (sep : Char) : List Char → List (List Char)
  | [] => [[]]
  | c :: r =>
      match splitChars sep r with
      | [] => if c = sep then [[], []] else [[c]]
      | h :: t => if c = sep then [] :: h :: t else (c :: h) :: t

/-- `message.split(sep)` as in JavaScript. -/
def jsSplit (message : String) (sep : Char) : List String :=
  (splitChars sep message.data).map String.mk

/-- The timestamp embedded in an ownership message:
`parseInt(message.split(colon)[1])`; `none` models NaN (also when
the message has no second colon-separated field, since parseInt of undefined
is NaN). -/
def messageTime (message : String) : Option Int :=
  match (jsSplit message ':').get? 1 with
  | some t => jsParseInt t
  | none => none

/-- The outcome of one `submitStar` call.  `rejected` and `resolved` are the
settled states of the returned promise.  The two hung constructors model the
async-executor defect of the source: the executor passed to `new Promise` is
an async function, so an exception inside it (a throwing
`bitcoinMessage.verify`, or an awaited `_addBlock` rejection) rejects only
the ignored inner promise - the promise submitStar returned NEVER settles,
and the error surfaces as an unhandled rejection. -/
inductive SubmitRes where
  | rejected (msg : String)
  | resolved (b : Block)
  | hungVerify (err : String)
  | hungAppend (errs : List ChainErr)
deriving DecidableEq

/-- The payload submitStar stores: an object with owner and star members. -/
def starPayload (address : String) (star : Jval) : Jval :=
  .jobj [("owner", .jstr address), ("star", star)]

/-- `submitStar(address, message, signature, star)`.  The source calls
`bitcoinMessage.verify` BEFORE the time-window checks; `verify` is the
external library, modelled as a parameter that either returns the boolean or
throws (`Except.error`).  When it throws, the time checks are never reached
and the promise never settles (see `SubmitRes`).  Otherwise the checks run
in source order: future timestamp, then expiry at 300 seconds, then the
verification boolean, then the append (whose rejection would also leave the
promise unsettled). NaN elapsed time (unparsable message) passes both time
checks, as in the source. -/
def submitStar (H : Block → String)
    (verify : String → String → String → Except String Bool)
    (now : Nat) (s : ChainState)
    (address message signature : String) (star : Jval) : SubmitRes × ChainState :=
  let timeElapsed? : Option Int := (messageTime message).map (fun t => (now : Int) - t)
  match verify message address signature with
  | .error e => (.hungVerify e, s)
  | .ok verifiedMessage =>
      if timeElapsed?.any (fun t => decide (t < 0)) then
        (.rejected "Invalid Time. Message timestamp is from the future!", s)
      else if timeElapsed?.any (fun t => decide (300 ≤ t)) then
        (.rejected "Expired Message. 5 mins grace to sign message exceeded!", s)
      else if !verifiedMessage then
        (.rejected "Message signature verification failed!", s)
      else
        match _addBlock H now s (Block.new (starPayload address star)) with
        | (.ok b, s2) => (.resolved b, s2)
        | (.error errs, s2) => (.hungAppend errs, s2)

/-- `getStarsByWalletAddress(address)`, faithful to the source: the
Array.filter predicate is `index > 0 && block.getBData().then(...)`, and a
Promise object is truthy, so the filter keeps every non-genesis block - raw
and regardless of owner.  The promise resolves synchronously with this
array; the then/catch callbacks attached to each getBData run afterwards and
cannot change the outcome (a reject after resolve is a no-op). -/
def getStarsByWalletAddress (s : ChainState) (address : String) : List Block :=
  ((s.chain.enum.filter (fun p => 0 < p.1)).map (fun p => p.2))

/-! ## The chain invariant and reachable states -/

/-- The well-formedness invariant of a chain state: non-empty, height in sync
with the array length, heights consecutive from 0, hash links intact, every
block passing its self-validation, and the genesis block carrying a null
previous hash and the genesis payload. -/
def WF (H : Block → String) (s : ChainState) : Prop :=
  s.chain ≠ [] ∧
  s.height = (s.chain.length : Int) - 1 ∧
  (∀ i (h : i < s.chain.length), (s.chain.get ⟨i, h⟩).height = (i : Int)) ∧
  List.Chain' (fun a b => b.previousBlockHash = a.hash) s.chain ∧
  (∀ b ∈ s.chain, Block.validate H b = true) ∧
  (∀ g, s.chain.head? = some g →
    g.previousBlockHash = none ∧ g.body = encodeBody genesisPayload)

theorem selfErrorLog_nil (H : Block → String) :
    ∀ l : List Block, (∀ b ∈ l, Block.validate H b = true) → selfErrorLog H l = []
  | [], _ => rfl
  | b :: r, h => by
      rw [selfErrorLog, if_pos (h b (List.mem_cons_self ..)),
        selfErrorLog_nil H r (fun x hx => h x (List.mem_cons_of_mem _ hx))]
      rfl

theorem linkErrorLog_nil :
    ∀ l : List Block, List.Chain' (fun a b => b.previousBlockHash = a.hash) l →
      linkErrorLog l = []
  | [], _ => rfl
  | [_], _ => rfl
  | a :: b :: r, h => by
      have h1 := List.chain'_cons.mp h
      rw [linkErrorLog, if_neg (by simp [h1.1]), linkErrorLog_nil (b :: r) h1.2]
      rfl

theorem validateChain_nil_of_wf (H : Block → String) (s : ChainState) (h : WF H s) :
    validateChain H s = [] := by
  obtain ⟨-, -, -, hchain, hvalid, -⟩ := h
  rw [validateChain, linkErrorLog_nil _ hchain, selfErrorLog_nil H _ hvalid]
  rfl

theorem prepareBlock_validate (H : Block → String) (now : Nat) (s : ChainState)
    (block : Block) (hb : block.hash = none) :
    Block.validate H (prepareBlock H now s block) = true := by
  obtain ⟨bh, bht, bb, bt, bp⟩ := block
  simp only [Block.hash] at hb
  subst hb
  cases hgl : s.chain.getLast? <;>
    simp [prepareBlock, Block.validate, Block.validateImpl, hgl]

theorem prepareBlock_prev_some (H : Block → String) (now : Nat) (s : ChainState)
    (block : Block) (last : Block) (h : s.chain.getLast? = some last) :
    (prepareBlock H now s block).previousBlockHash = last.hash := by
  simp [prepareBlock, h]

theorem prepareBlock_prev_none (H : Block → String) (now : Nat) (s : ChainState)
    (block : Block) (h : s.chain.getLast? = none) :
    (prepareBlock H now s block).previousBlockHash = block.previousBlockHash := by
  simp [prepareBlock, h]

theorem prepareBlock_height (H : Block → String) (now : Nat) (s : ChainState)
    (block : Block) : (prepareBlock H now s block).height = s.height + 1 := by
  cases hgl : s.chain.getLast? <;> simp [prepareBlock, hgl]

theorem prepareBlock_body (H : Block → String) (now : Nat) (s : ChainState)
    (block : Block) : (prepareBlock H now s block).body = block.body := by
  cases hgl : s.chain.getLast? <;> simp [prepareBlock, hgl]

theorem wf_push (H : Block → String) (now : Nat) (s : ChainState) (block : Block)
    (hb : block.hash = none) (hwf : WF H s) :
    WF H { chain := s.chain ++ [prepareBlock H now s block], height := s.height + 1 } := by
  obtain ⟨hne, hh, hht, hlink, hval, hgen⟩ := hwf
  obtain ⟨last, hlast⟩ : ∃ last, s.chain.getLast? = some last := by
    cases hgl : s.chain.getLast? with
    | none => exact absurd (List.getLast?_eq_none_iff.mp hgl) hne
    | some a => exact ⟨a, rfl⟩
  refine ⟨by simp, ?_, ?_, ?_, ?_, ?_⟩
  · simp
    omega
  · intro i hi
    simp only [List.length_append, List.length_cons, List.length_nil] at hi
    by_cases hlt : i < s.chain.length
    · have h2 : (s.chain ++ [prepareBlock H now s block]).get ⟨i, by simp; omega⟩
          = s.chain.get ⟨i, hlt⟩ := by
        simp only [List.get_eq_getElem]
        exact List.getElem_append_left hlt
      rw [h2]
      exact hht i hlt
    · have hieq : i = s.chain.length := by omega
      subst hieq
      have h2 : (s.chain ++ [prepareBlock H now s block]).get ⟨s.chain.length, by simp⟩
          = prepareBlock H now s block := by
        simp [List.get_eq_getElem]
      rw [h2, prepareBlock_height]
      omega
  · refine List.chain'_append.mpr ⟨hlink, List.chain'_singleton _, ?_⟩
    intro x hx y hy
    rw [hlast] at hx
    simp at hx hy
    subst hx
    subst hy
    exact prepareBlock_prev_some H now s block last hlast
  · intro b hb2
    rcases List.mem_append.mp hb2 with h2 | h2
    · exact hval b h2
    · rw [List.mem_singleton] at h2
      subst h2
      exact prepareBlock_validate H now s block hb
  · intro g hg
    cases hc : s.chain with
    | nil => exact absurd hc hne
    | cons a t =>
        rw [hc] at hg
        simp at hg
        subst hg
        exact hgen a (by rw [hc]; rfl)

theorem addBlock_success (H : Block → String) (now : Nat) (s : ChainState) (block : Block)
    (h : validateChain H
      { chain := s.chain ++ [prepareBlock H now s block], height := s.height + 1 } = []) :
    _addBlock H now s block =
      (.ok (prepareBlock H now s block),
       { chain := s.chain ++ [prepareBlock H now s block], height := s.height + 1 }) := by
  unfold _addBlock
  simp [h]

theorem addBlock_of_wf (H : Block → String) (now : Nat) (s : ChainState) (block : Block)
    (hb : block.hash = none) (hwf : WF H s) :
    _addBlock H now s block =
      (.ok (prepareBlock H now s block),
       { chain := s.chain ++ [prepareBlock H now s block], height := s.height + 1 }) ∧
    WF H { chain := s.chain ++ [prepareBlock H now s block], height := s.height + 1 } :=
  have hwfp := wf_push H now s block hb hwf
  ⟨addBlock_success H now s block (validateChain_nil_of_wf H _ hwfp), hwfp⟩

theorem newBlockchain_eq (H : Block → String) (now : Nat) :
    newBlockchain H now =
      { chain := [prepareBlock H now { chain := [], height := -1 } (Block.new genesisPayload)],
        height := 0 } := by
  unfold newBlockchain initializeChain
  rw [if_pos rfl]
  have hv : Block.validate H (prepareBlock H now ⟨[], -1⟩ (Block.new genesisPayload)) = true :=
    prepareBlock_validate H now _ _ rfl
  unfold _addBlock
  simp [validateChain, linkErrorLog, selfErrorLog, hv]

theorem newBlockchain_wf (H : Block → String) (now : Nat) : WF H (newBlockchain H now) := by
  rw [newBlockchain_eq]
  refine ⟨by simp, by simp, ?_, List.chain'_singleton _, ?_, ?_⟩
  · intro i h
    simp at h
    subst h
    show (prepareBlock H now { chain := [], height := -1 } (Block.new genesisPayload)).height = _
    rw [prepareBlock_height]
    rfl
  · intro b hb
    simp at hb
    subst hb
    exact prepareBlock_validate H now _ _ rfl
  · intro g hg
    simp at hg
    subst hg
    constructor
    · rw [prepareBlock_prev_none H now { chain := [], height := -1 }
        (Block.new genesisPayload) rfl]
      rfl
    · rw [prepareBlock_body]
      rfl

/-- Chain states reachable through the public operations: construction (which
runs initializeChain), any further initializeChain call, and submitStar with
arbitrary hash function inputs, clock values, verify behaviour and payloads.
The read-only operations do not change the state. -/
inductive Reachable (H : Block → String) : ChainState → Prop where
  | boot (now : Nat) : Reachable H (newBlockchain H now)
  | initStep {s : ChainState} (now : Nat) :
      Reachable H s → Reachable H (initializeChain H now s)
  | submitStep {s : ChainState}
      (verify : String → String → String → Except String Bool) (now : Nat)
      (address message signature : String) (star : Jval) :
      Reachable H s →
      Reachable H (submitStar H verify now s address message signature star).2

theorem reachable_wf (H : Block → String) {s : ChainState} (h : Reachable H s) : WF H s := by
  induction h with
  | boot now => exact newBlockchain_wf H now
  | initStep now _ ih =>
      rename_i s' _
      unfold initializeChain
      rw [if_neg ?_]
      · exact ih
      · obtain ⟨hne, hh, -⟩ := ih
        have hlen : 1 ≤ s'.chain.length := List.length_pos.mpr hne
        omega
  | submitStep verify now address message signature star _ ih =>
      rename_i s' _
      unfold submitStar
      cases hv : verify message address signature with
      | error e => exact ih
      | ok vb =>
          dsimp only
          split_ifs with h1 h2 h3
          · exact ih
          · exact ih
          · exact ih
          · obtain ⟨heq, hwfp⟩ :=
              addBlock_of_wf H now s' (Block.new (starPayload address star)) rfl ih
            rw [heq]
            exact hwfp

/-- A successful `_addBlock` always resolves with the prepared block. -/
theorem addBlock_ok_eq (H : Block → String) (now : Nat) (s : ChainState) (block : Block)
    {b2 : Block} (h : (_addBlock H now s block).1 = .ok b2) :
    b2 = prepareBlock H now s block ∧
    (_addBlock H now s block).2 =
      { chain := s.chain ++ [prepareBlock H now s block], height := s.height + 1 } := by
  unfold _addBlock at h ⊢
  by_cases hcond : 0 < (validateChain H
      { chain := s.chain ++ [prepareBlock H now s block], height := s.height + 1 }).length
  · rw [if_pos hcond] at h
    simp at h
  · rw [if_neg hcond] at h ⊢
    simp at h
    exact ⟨h.symm, rfl⟩

/-- Every block that fails its self-validation is reported by the
block-validity part of the errorLog. -/
theorem selfErrorLog_mem (H : Block → String) :
    ∀ (l : List Block) (b : Block), b ∈ l → Block.validate H b = false →
      ChainErr.blockInvalid b ∈ selfErrorLog H l
  | [], b, hb, _ => absurd hb (by simp)
  | a :: r, b, hb, hv => by
      rw [selfErrorLog]
      rcases List.mem_cons.mp hb with rfl | hmem
      · rw [if_neg (by simp [hv])]
        exact List.mem_append_left _ (List.mem_singleton.mpr rfl)
      · exact List.mem_append_right _ (selfErrorLog_mem H r b hmem hv)

/-- Every broken hash link is reported by the link part of the errorLog. -/
theorem linkErrorLog_mem : ∀ (l : List Block) (i : Nat) (hi : i + 1 < l.length),
    (l.get ⟨i + 1, hi⟩).previousBlockHash ≠ (l.get ⟨i, by omega⟩).hash →
    ChainErr.brokenLink ((l.get ⟨i, by omega⟩).hash) ((l.get ⟨i + 1, hi⟩).previousBlockHash)
      ∈ linkErrorLog l
  | [], i, hi, _ => absurd hi (by simp)
  | [_], i, hi, _ => absurd hi (by simp)
  | a :: b :: r, 0, hi, h => by
      have h2 : b.previousBlockHash ≠ a.hash := h
      rw [linkErrorLog, if_pos h2]
      exact List.mem_append_left _ (List.mem_singleton.mpr rfl)
  | a :: b :: r, j + 1, hi, h => by
      rw [linkErrorLog]
      refine List.mem_append_right _ ?_
      exact linkErrorLog_mem (b :: r) j (by simp at hi ⊢; omega) h

/-- Index congruence for list gets. -/
theorem get_idx_congr {α : Type} (l : List α) (i j : Nat) (hi : i < l.length)
    (hj : j < l.length) (h : i = j) : l.get ⟨i, hi⟩ = l.get ⟨j, hj⟩ := by
  subst h
  rfl

/-! ## Concrete instances used by witnesses -/

/-- A concrete stand-in digest function for witness computations. -/
def hWitness : Block → String := fun b => String.append "h" b.time

/-- A verify stub that returns true, as on a valid signature. -/
def verifyOk : String → String → String → Except String Bool := fun _ _ _ => .ok true

/-- A verify stub that throws, as bitcoinjs-message does on a malformed
signature buffer. -/
def verifyThrows : String → String → String → Except String Bool :=
  fun _ _ _ => .error "Invalid signature length"

/-- A hand-tampered block: its stored hash does not match any digest that
`hWitness` produces. -/
def tamperedBlock : Block :=
  { hash := some "bad", height := 0, body := encodeBody genesisPayload, time := "0",
    previousBlockHash := none }

/-- A chain state holding only the tampered block. -/
def tamperedState : ChainState := { chain := [tamperedBlock], height := 0 }

/-- A height-0 block whose body decodes to "hello", which is not JSON. -/
def malformedBlock : Block :=
  { hash := none, height := 0, body := "68656c6c6f", time := "0",
    previousBlockHash := none }

/-- A block whose previousBlockHash does not point at the tampered block. -/
def badLinkBlock : Block :=
  { hash := some "h5", height := 1, body := "00", time := "5",
    previousBlockHash := some "nope" }

/-- A hand-built chain state with one self-invalid block and one broken
link, used to exercise validateChain. -/
def badChain : ChainState := { chain := [tamperedBlock, badLinkBlock], height := 1 }

/-- The chain state after one successful star submission by owner 1A2b. -/
def starState : ChainState :=
  (submitStar hWitness verifyOk 1000 (newBlockchain hWitness 99)
    "1A2b" "1A2b:900:starRegistry" "sig" (.jstr "sirius")).2

/-! ## The claims -/

/-- C1: appendBlock is atomic on failure: after the new block is tentatively
pushed and the height incremented, full-chain validation is run; if it
reports any errors, the just-pushed block is popped, the height is
decremented, the pre-append chain state is fully restored and the operation
fails with those errors; on success it returns the stored block (together
with the pushed state). -/
theorem c1_addBlock_rollback_atomic (H : Block → String) (now : Nat) (s : ChainState)
    (block : Block) :
    (validateChain H
        { chain := s.chain ++ [prepareBlock H now s block], height := s.height + 1 } ≠ [] →
      _addBlock H now s block =
        (.error (validateChain H
          { chain := s.chain ++ [prepareBlock H now s block], height := s.height + 1 }), s)) ∧
    (validateChain H
        { chain := s.chain ++ [prepareBlock H now s block], height := s.height + 1 } = [] →
      _addBlock H now s block =
        (.ok (prepareBlock H now s block),
         { chain := s.chain ++ [prepareBlock H now s block], height := s.height + 1 })) := by
  obtain ⟨ch, hgt⟩ := s
  constructor
  · intro h
    have hlen : 0 < (validateChain H
        { chain := ch ++ [prepareBlock H now ⟨ch, hgt⟩ block], height := hgt + 1 }).length :=
      List.length_pos.mpr h
    unfold _addBlock
    rw [if_pos hlen]
    simp only [List.dropLast_concat, add_sub_cancel_right]
  · exact addBlock_success H now ⟨ch, hgt⟩ block

theorem c1_addBlock_rollback_atomic_witness :
    (validateChain hWitness
        { chain := tamperedState.chain
            ++ [prepareBlock hWitness 5 tamperedState (Block.new genesisPayload)],
          height := tamperedState.height + 1 } ≠ [] ∧
      _addBlock hWitness 5 tamperedState (Block.new genesisPayload) =
        (.error (validateChain hWitness
          { chain := tamperedState.chain
              ++ [prepareBlock hWitness 5 tamperedState (Block.new genesisPayload)],
            height := tamperedState.height + 1 }), tamperedState)) ∧
    (validateChain hWitness
        { chain := [prepareBlock hWitness 5 { chain := [], height := -1 }
            (Block.new genesisPayload)],
          height := 0 } = [] ∧
      _addBlock hWitness 5 { chain := [], height := -1 } (Block.new genesisPayload) =
        (.ok (prepareBlock hWitness 5 { chain := [], height := -1 } (Block.new genesisPayload)),
         { chain := [prepareBlock hWitness 5 { chain := [], height := -1 }
             (Block.new genesisPayload)],
           height := 0 })) :=
  ⟨⟨by decide,
    (c1_addBlock_rollback_atomic hWitness 5 tamperedState (Block.new genesisPayload)).1
      (by decide)⟩,
   ⟨by decide,
    (c1_addBlock_rollback_atomic hWitness 5 { chain := [], height := -1 }
      (Block.new genesisPayload)).2 (by decide)⟩⟩

/-- C2: every chain state reachable through the public operations satisfies
the chain invariant: each block's height equals its index, each non-genesis
block's previousBlockHash equals the hash of the block one index below, the
genesis block has a null previousBlockHash and carries the encoded
Genesis-Block payload, and the stored height is the chain length minus
one. -/
theorem c2_reachable_chain_invariant (H : Block → String) (s : ChainState)
    (h : Reachable H s) :
    (∀ i (hi : i < s.chain.length), (s.chain.get ⟨i, hi⟩).height = (i : Int)) ∧
    (∀ i (hi : i < s.chain.length), 0 < i →
      (s.chain.get ⟨i, hi⟩).previousBlockHash
        = (s.chain.get ⟨i - 1, by omega⟩).hash) ∧
    (∀ g, s.chain.head? = some g →
      g.previousBlockHash = none ∧ g.body = encodeBody genesisPayload) ∧
    s.height = (s.chain.length : Int) - 1 := by
  obtain ⟨hne, hh, hht, hlink, hval, hgen⟩ := reachable_wf H h
  refine ⟨hht, ?_, hgen, hh⟩
  intro i hi h0
  have hc := List.chain'_iff_get.mp hlink (i - 1) (by omega)
  have e1 : s.chain.get ⟨i - 1 + 1, by omega⟩ = s.chain.get ⟨i, hi⟩ :=
    get_idx_congr _ _ _ _ _ (by omega)
  rw [e1] at hc
  exact hc

theorem c2_reachable_chain_invariant_witness :
    ((newBlockchain hWitness 5).chain.get ⟨0, by decide⟩).height = ((0 : Nat) : Int) ∧
    (newBlockchain hWitness 5).height = ((newBlockchain hWitness 5).chain.length : Int) - 1 :=
  ⟨(c2_reachable_chain_invariant hWitness (newBlockchain hWitness 5) (Reachable.boot 5)).1 0
     (by decide),
   (c2_reachable_chain_invariant hWitness (newBlockchain hWitness 5) (Reachable.boot 5)).2.2.2⟩

/-- C3: every block appended through a succeeding `_addBlock` call (the
append operation always receives a freshly constructed block, whose hash
field is still null) passes its own `validate()` immediately afterwards. -/
theorem c3_appended_block_validates (H : Block → String) (now : Nat) (s : ChainState)
    (block : Block) (b2 : Block) (hb : block.hash = none)
    (h : (_addBlock H now s block).1 = .ok b2) :
    Block.validate H b2 = true := by
  obtain ⟨heq, -⟩ := addBlock_ok_eq H now s block h
  rw [heq]
  exact prepareBlock_validate H now s block hb

theorem c3_appended_block_validates_witness :
    (Block.new genesisPayload).hash = none ∧
    (_addBlock hWitness 7 { chain := [], height := -1 } (Block.new genesisPayload)).1
      = .ok (prepareBlock hWitness 7 { chain := [], height := -1 }
          (Block.new genesisPayload)) ∧
    Block.validate hWitness
      (prepareBlock hWitness 7 { chain := [], height := -1 } (Block.new genesisPayload))
      = true :=
  ⟨rfl, by decide,
   c3_appended_block_validates hWitness 7 { chain := [], height := -1 }
     (Block.new genesisPayload) _ rfl (by decide)⟩

/-- C4: validateChain reports every defect: if the block at index i fails
its self-validation, a blockInvalid entry for that block is in the
errorLog, and if the block at index i (i positive) stores a
previousBlockHash different from the hash of the block at index i-1, a
brokenLink entry carrying the two hashes is in the errorLog. -/
theorem c4_validateChain_reports (H : Block → String) (s : ChainState) :
    (∀ i (hi : i < s.chain.length), Block.validate H (s.chain.get ⟨i, hi⟩) = false →
      ChainErr.blockInvalid (s.chain.get ⟨i, hi⟩) ∈ validateChain H s) ∧
    (∀ i (hi : i < s.chain.length), 0 < i →
      (s.chain.get ⟨i, hi⟩).previousBlockHash ≠ (s.chain.get ⟨i - 1, by omega⟩).hash →
      ChainErr.brokenLink ((s.chain.get ⟨i - 1, by omega⟩).hash)
          ((s.chain.get ⟨i, hi⟩).previousBlockHash)
        ∈ validateChain H s) := by
  constructor
  · intro i hi hv
    exact List.mem_append_right _
      (selfErrorLog_mem H s.chain _ (List.get_mem _ _ _) hv)
  · intro i hi h0 hne
    refine List.mem_append_left _ ?_
    have e1 : s.chain.get ⟨i - 1 + 1, by omega⟩ = s.chain.get ⟨i, hi⟩ :=
      get_idx_congr _ _ _ _ _ (by omega)
    have hm := linkErrorLog_mem s.chain (i - 1) (by omega) (by rw [e1]; exact hne)
    rw [e1] at hm
    exact hm

theorem c4_validateChain_reports_witness :
    Block.validate hWitness (badChain.chain.get ⟨0, by decide⟩) = false ∧
    ChainErr.blockInvalid (badChain.chain.get ⟨0, by decide⟩)
      ∈ validateChain hWitness badChain ∧
    (badChain.chain.get ⟨1, by decide⟩).previousBlockHash
      ≠ (badChain.chain.get ⟨1 - 1, by decide⟩).hash ∧
    ChainErr.brokenLink ((badChain.chain.get ⟨1 - 1, by decide⟩).hash)
        ((badChain.chain.get ⟨1, by decide⟩).previousBlockHash)
      ∈ validateChain hWitness badChain :=
  ⟨by decide,
   (c4_validateChain_reports hWitness badChain).1 0 (by decide) (by decide),
   by decide,
   (c4_validateChain_reports hWitness badChain).2 1 (by decide) (by decide) (by decide)⟩

/-- C5: the claim is false of the code: getStarsByWalletAddress does not
filter by owner and does not return decoded star data.  Its Array.filter
predicate is index greater than 0 AND a Promise object, and a Promise is
always truthy, so on a chain holding one star owned by address 1A2b the
method returns that raw encoded block even when queried for an unrelated
address; the result is the same for every queried address. -/
theorem c5_getStars_returns_raw_blocks :
    getStarsByWalletAddress starState "someoneElse"
      = [prepareBlock hWitness 1000 (newBlockchain hWitness 99)
          (Block.new (starPayload "1A2b" (.jstr "sirius")))] ∧
    Block.getBData (prepareBlock hWitness 1000 (newBlockchain hWitness 99)
          (Block.new (starPayload "1A2b" (.jstr "sirius"))))
      = .ok (starPayload "1A2b" (.jstr "sirius")) ∧
    getStarsByWalletAddress starState "1A2b"
      = getStarsByWalletAddress starState "someoneElse" := by
  decide

/-- C6 (amended): when the signature verification returns a boolean, the
checks run in source order - reject on a future timestamp, then on a message
older than 300 seconds, then on a false verification - and only then is the
star block appended; a resolved block stores the encoded owner-and-star
payload, which getBData recovers whenever the stringified payload is pure
ASCII (and the block is not at height 0).  When verification throws instead,
no rejection happens at all (see the counterexample). -/
theorem c6_submitStar_checks (H : Block → String)
    (verify : String → String → String → Except String Bool) (now : Nat) (s : ChainState)
    (address message signature : String) (star : Jval) (vb : Bool)
    (hv : verify message address signature = Except.ok vb) :
    (((messageTime message).map (fun t => (now : Int) - t)).any
        (fun t => decide (t < 0)) = true →
      submitStar H verify now s address message signature star
        = (.rejected "Invalid Time. Message timestamp is from the future!", s)) ∧
    (((messageTime message).map (fun t => (now : Int) - t)).any
        (fun t => decide (t < 0)) = false →
      ((messageTime message).map (fun t => (now : Int) - t)).any
        (fun t => decide (300 ≤ t)) = true →
      submitStar H verify now s address message signature star
        = (.rejected "Expired Message. 5 mins grace to sign message exceeded!", s)) ∧
    (((messageTime message).map (fun t => (now : Int) - t)).any
        (fun t => decide (t < 0)) = false →
      ((messageTime message).map (fun t => (now : Int) - t)).any
        (fun t => decide (300 ≤ t)) = false →
      vb = false →
      submitStar H verify now s address message signature star
        = (.rejected "Message signature verification failed!", s)) ∧
    (((messageTime message).map (fun t => (now : Int) - t)).any
        (fun t => decide (t < 0)) = false →
      ((messageTime message).map (fun t => (now : Int) - t)).any
        (fun t => decide (300 ≤ t)) = false →
      vb = true →
      submitStar H verify now s address message signature star
        = (match _addBlock H now s (Block.new (starPayload address star)) with
           | (.ok b, s2) => (.resolved b, s2)
           | (.error errs, s2) => (.hungAppend errs, s2))) ∧
    (∀ b2, (submitStar H verify now s address message signature star).1 = .resolved b2 →
      b2.body = encodeBody (starPayload address star) ∧
      (asciiChars (stringifyV (starPayload address star)) = true → b2.height ≠ 0 →
        Block.getBData b2 = .ok (starPayload address star))) := by
  have he : submitStar H verify now s address message signature star =
      (if ((messageTime message).map (fun t => (now : Int) - t)).any
          (fun t => decide (t < 0)) then
        (.rejected "Invalid Time. Message timestamp is from the future!", s)
      else if ((messageTime message).map (fun t => (now : Int) - t)).any
          (fun t => decide (300 ≤ t)) then
        (.rejected "Expired Message. 5 mins grace to sign message exceeded!", s)
      else if !vb then
        (.rejected "Message signature verification failed!", s)
      else
        match _addBlock H now s (Block.new (starPayload address star)) with
        | (.ok b, s2) => (.resolved b, s2)
        | (.error errs, s2) => (.hungAppend errs, s2)) := by
    unfold submitStar
    rw [hv]
  refine ⟨?_, ?_, ?_, ?_, ?_⟩
  · intro h1
    rw [he, if_pos h1]
  · intro h1 h2
    rw [he, if_neg (by simp [h1]), if_pos h2]
  · intro h1 h2 h3
    rw [he, if_neg (by simp [h1]), if_neg (by simp [h2]), if_pos (by simp [h3])]
  · intro h1 h2 h3
    rw [he, if_neg (by simp [h1]), if_neg (by simp [h2]), if_neg (by simp [h3])]
  · intro b2 hres
    rw [he] at hres
    by_cases h1 : ((messageTime message).map (fun t => (now : Int) - t)).any
        (fun t => decide (t < 0)) = true
    · rw [if_pos h1] at hres
      simp at hres
    · rw [if_neg h1] at hres
      by_cases h2 : ((messageTime message).map (fun t => (now : Int) - t)).any
          (fun t => decide (300 ≤ t)) = true
      · rw [if_pos h2] at hres
        simp at hres
      · rw [if_neg h2] at hres
        by_cases h3 : (!vb) = true
        · rw [if_pos h3] at hres
          simp at hres
        · rw [if_neg h3] at hres
          rcases hab : _addBlock H now s (Block.new (starPayload address star))
            with ⟨r, s2⟩
          rw [hab] at hres
          cases r with
          | error errs => simp at hres
          | ok b =>
              have hb2 : b = b2 := by
                dsimp only at hres
                exact SubmitRes.resolved.inj hres
              have hok : (_addBlock H now s (Block.new (starPayload address star))).1
                  = .ok b := by rw [hab]
              obtain ⟨hprep, -⟩ := addBlock_ok_eq H now s _ hok
              subst hb2
              subst hprep
              constructor
              · rw [prepareBlock_body]
                rfl
              · intro hasc hh0
                unfold Block.getBData
                have hbody : (prepareBlock H now s
                    (Block.new (starPayload address star))).body
                    = encodeBody (starPayload address star) := by
                  rw [prepareBlock_body]
                  rfl
                rw [hbody, decodeBody_encodeBody _ hasc]
                dsimp only
                rw [if_neg hh0]

theorem c6_submitStar_checks_witness :
    verifyOk "1A2b:600:starRegistry" "1A2b" "sig" = Except.ok true ∧
    (((messageTime "1A2b:600:starRegistry").map (fun t => ((1000 : Nat) : Int) - t)).any
        (fun t => decide (t < 0)) = false ∧
     ((messageTime "1A2b:600:starRegistry").map (fun t => ((1000 : Nat) : Int) - t)).any
        (fun t => decide (300 ≤ t)) = true) ∧
    submitStar hWitness verifyOk 1000 (newBlockchain hWitness 99)
        "1A2b" "1A2b:600:starRegistry" "sig" (.jstr "vega")
      = (.rejected "Expired Message. 5 mins grace to sign message exceeded!",
         newBlockchain hWitness 99) :=
  ⟨rfl, ⟨by decide, by decide⟩,
   (c6_submitStar_checks hWitness verifyOk 1000 (newBlockchain hWitness 99)
     "1A2b" "1A2b:600:starRegistry" "sig" (.jstr "vega") true rfl).2.1
     (by decide) (by decide)⟩

/-- C7: for every block whose hash has been assigned, `validate()` resolves
true exactly when the digest recomputed with the hash field temporarily
nulled equals the stored hash; it is a total function (never throws), and it
leaves the block exactly as it found it (the temporary null is reverted). -/
theorem c7_validate_spec (H : Block → String) (b : Block) (hsh : String)
    (h : b.hash = some hsh) :
    ((Block.validateImpl H b).1 = true ↔ H { b with hash := none } = hsh) ∧
    (Block.validateImpl H b).2 = b := by
  obtain ⟨bh, bht, bb, bt, bp⟩ := b
  simp only [Block.hash] at h
  subst h
  constructor
  · dsimp only [Block.validateImpl]
    rw [beq_iff_eq]
    simp only [Option.some.injEq]
    exact eq_comm
  · rfl

theorem c7_validate_spec_witness :
    tamperedBlock.hash = some "bad" ∧
    ((Block.validateImpl hWitness tamperedBlock).1 = true ↔
      hWitness { tamperedBlock with hash := none } = "bad") ∧
    (Block.validateImpl hWitness tamperedBlock).2 = tamperedBlock :=
  ⟨rfl, (c7_validate_spec hWitness tamperedBlock "bad" rfl).1,
   (c7_validate_spec hWitness tamperedBlock "bad" rfl).2⟩

/-- C6, the claim as frozen is false: a fully valid submission whose star
holds the non-ASCII character e-acute resolves with a block whose decoded
payload differs from the submitted owner-and-star object, because hex2ascii
decodes byte-wise and is not the inverse of the UTF-8 encoding used by
Buffer.from: the star comes back as the two characters A-tilde
copyright-sign. -/
theorem c6_submitStar_counterexample :
    (submitStar hWitness verifyOk 1000 (newBlockchain hWitness 99)
        "1A2b" "1A2b:900:starRegistry" "sig" (.jstr "é")).1
      = .resolved (prepareBlock hWitness 1000 (newBlockchain hWitness 99)
          (Block.new (starPayload "1A2b" (.jstr "é")))) ∧
    Block.getBData (prepareBlock hWitness 1000 (newBlockchain hWitness 99)
          (Block.new (starPayload "1A2b" (.jstr "é"))))
      = .ok (starPayload "1A2b" (.jstr "Ã©")) ∧
    starPayload "1A2b" (.jstr "Ã©") ≠ starPayload "1A2b" (.jstr "é") := by
  decide

/-- C8 (amended): getBData on the genesis block of every reachable chain
fails with the genesis error, and the round trip holds for appended blocks
whenever the stringified payload is pure ASCII: a succeeding append of a
freshly constructed block onto a chain of non-negative height yields a
block whose getBData returns exactly the submitted payload. -/
theorem c8_getBData_roundtrip (H : Block → String) :
    (∀ s, Reachable H s → ∀ g, s.chain.head? = some g →
      Block.getBData g = .error .genesisBlock) ∧
    (∀ (now : Nat) (s : ChainState) (payload : Jval) (b2 : Block),
      asciiChars (stringifyV payload) = true →
      0 ≤ s.height →
      (_addBlock H now s (Block.new payload)).1 = .ok b2 →
      Block.getBData b2 = .ok payload) := by
  constructor
  · intro s hs g hg
    obtain ⟨hne, hh, hht, hlink, hval, hgen⟩ := reachable_wf H hs
    obtain ⟨hprev, hbody⟩ := hgen g hg
    have hheight : g.height = 0 := by
      obtain ⟨ch, ht⟩ := s
      dsimp only at hg hht
      cases ch with
      | nil => simp at hg
      | cons a r =>
          have hag : a = g := by
            simp only [List.head?] at hg
            exact Option.some.inj hg
          have h0 := hht 0 (by simp)
          simp only [List.get_cons_zero] at h0
          rw [hag] at h0
          simpa using h0
    unfold Block.getBData
    rw [hbody, decodeBody_encodeBody genesisPayload (by decide)]
    dsimp only
    rw [if_pos hheight]
  · intro now s payload b2 hasc hs0 hok
    obtain ⟨hprep, -⟩ := addBlock_ok_eq H now s _ hok
    subst hprep
    unfold Block.getBData
    have hbody : (prepareBlock H now s (Block.new payload)).body = encodeBody payload := by
      rw [prepareBlock_body]
      rfl
    rw [hbody, decodeBody_encodeBody _ hasc]
    dsimp only
    rw [if_neg (by rw [prepareBlock_height]; omega)]

theorem c8_getBData_roundtrip_witness :
    Block.getBData (prepareBlock hWitness 3 { chain := [], height := -1 }
        (Block.new genesisPayload)) = .error .genesisBlock ∧
    Block.getBData (prepareBlock hWitness 8 (newBlockchain hWitness 3)
        (Block.new (starPayload "w" (.jstr "x")))) = .ok (starPayload "w" (.jstr "x")) :=
  ⟨(c8_getBData_roundtrip hWitness).1 (newBlockchain hWitness 3) (Reachable.boot 3)
     _ (by decide),
   (c8_getBData_roundtrip hWitness).2 8 (newBlockchain hWitness 3)
     (starPayload "w" (.jstr "x")) _ (by decide) (by decide) (by decide)⟩

/-- C8, the claim as frozen is false: a successfully appended non-genesis
block built from a payload holding the character e-acute decodes to a
payload different from the one submitted - decode is not the inverse of
encode outside ASCII, because hex2ascii is byte-wise while the body was
encoded from UTF-8 bytes. -/
theorem c8_roundtrip_counterexample :
    ((_addBlock hWitness 7 (newBlockchain hWitness 99)
        (Block.new (starPayload "a" (.jstr "é")))).1
      = .ok (prepareBlock hWitness 7 (newBlockchain hWitness 99)
          (Block.new (starPayload "a" (.jstr "é"))))) ∧
    (prepareBlock hWitness 7 (newBlockchain hWitness 99)
        (Block.new (starPayload "a" (.jstr "é")))).height ≠ 0 ∧
    Block.getBData (prepareBlock hWitness 7 (newBlockchain hWitness 99)
        (Block.new (starPayload "a" (.jstr "é"))))
      ≠ .ok (starPayload "a" (.jstr "é")) := by
  decide

/-- C9 (amended): submitStar evaluates the cryptographic signature
verification before the time-window checks, so when verification throws the
time checks are never reached; but because the executor is an async
function, the thrown exception does not reject the promise submitStar
returned - that promise never settles and the exception escapes as an
unhandled rejection (`SubmitRes.hungVerify` carries it).  In particular the
call does not fail with ExpiredMessageError or FutureMessageError, and it
does not reject with the verification exception either. -/
theorem c9_verify_throw_wins (H : Block → String)
    (verify : String → String → String → Except String Bool) (now : Nat) (s : ChainState)
    (address message signature : String) (star : Jval) (e : String)
    (hv : verify message address signature = Except.error e) :
    submitStar H verify now s address message signature star = (.hungVerify e, s) := by
  unfold submitStar
  rw [hv]

/-- C9, the claim as frozen is false: on an expired message with a throwing
signature, submitStar does not fail with the verification exception (nor
with ExpiredMessageError) - it never settles at all. -/
theorem c9_expired_counterexample :
    submitStar hWitness verifyThrows 9999 (newBlockchain hWitness 99)
        "1Zz" "1Zz:5:starRegistry" "oops" .jnull
      = (.hungVerify "Invalid signature length", newBlockchain hWitness 99) ∧
    (submitStar hWitness verifyThrows 9999 (newBlockchain hWitness 99)
        "1Zz" "1Zz:5:starRegistry" "oops" .jnull).1
      ≠ .rejected "Expired Message. 5 mins grace to sign message exceeded!" ∧
    (submitStar hWitness verifyThrows 9999 (newBlockchain hWitness 99)
        "1Zz" "1Zz:5:starRegistry" "oops" .jnull).1
      ≠ .rejected "Invalid signature length" := by
  decide

theorem c9_verify_throw_wins_witness :
    verifyThrows "1Zz:5:starRegistry" "1Zz" "oops" = Except.error "Invalid signature length" ∧
    submitStar hWitness verifyThrows 12345 (newBlockchain hWitness 99)
        "1Zz" "1Zz:5:starRegistry" "oops" .jnull
      = (.hungVerify "Invalid signature length", newBlockchain hWitness 99) :=
  ⟨rfl, c9_verify_throw_wins hWitness verifyThrows 12345 (newBlockchain hWitness 99)
    "1Zz" "1Zz:5:starRegistry" "oops" .jnull "Invalid signature length" rfl⟩

/-- C10: `getBData` decodes and JSON-parses the body before the
genesis-height test, so a height-0 block with a malformed body rejects with
the parse error (the SyntaxError), not with the genesis error; the genesis
error is reached only when the body parses successfully (and the height is
0). -/
theorem c10_parse_before_genesis (b : Block) :
    (b.height = 0 → jsonParse (hex2ascii b.body) = none →
      Block.getBData b = .error .jsonSyntaxError) ∧
    (Block.getBData b = .error .genesisBlock →
      (jsonParse (hex2ascii b.body)).isSome = true ∧ b.height = 0) := by
  constructor
  · intro _ h
    unfold Block.getBData
    rw [h]
  · intro h
    unfold Block.getBData at h
    cases hp : jsonParse (hex2ascii b.body) with
    | none =>
        rw [hp] at h
        simp at h
    | some d =>
        rw [hp] at h
        dsimp only at h
        refine ⟨rfl, ?_⟩
        by_cases hh : b.height = 0
        · exact hh
        · rw [if_neg hh] at h
          exact absurd h (by simp)

theorem c10_parse_before_genesis_witness :
    malformedBlock.height = 0 ∧
    jsonParse (hex2ascii malformedBlock.body) = none ∧
    Block.getBData malformedBlock = .error .jsonSyntaxError ∧
    Block.getBData (Block.new genesisPayload) = .error .genesisBlock ∧
    (jsonParse (hex2ascii (Block.new genesisPayload).body)).isSome = true :=
  ⟨rfl, by decide,
   (c10_parse_before_genesis malformedBlock).1 rfl (by decide),
   by decide,
   ((c10_parse_before_genesis (Block.new genesisPayload)).2 (by decide)).1⟩

end PrivateBlockchain
